import Mathlib

/-!
Verification of the rules core of `NeoChessBoard.js`: the FEN codec
(`parseFEN` / `boardToFEN`), the fallback engine `LightRules`
(`movesFrom`, `move`), and the snapshot diff matcher (`findPiece` and the
moving-map construction of `_animateTo`).

The JavaScript is shallowly embedded: the 8×8 board becomes a list of rows
of `Option Char` (the FEN piece letter, as in the source), squares are the
two-character labels the source uses, and every JS function is translated
into a total Lean function.  Out-of-range array reads, which in JS yield
`undefined` (or throw for doubly-nested access on states that are
unreachable through the validated interface), are modelled as `none`;
out-of-range writes are dropped.  JS `parseInt` is modelled as a
digit-prefix parser returning 0 when no digit is present (JS would give
`NaN`; no record produced by the codec hits that case).
-/

namespace NCB

/-- Board squares are indexed `board[rank][file]`, rank 0 = rank 1. -/
abbrev Board := List (List (Option Char))

/-- `FILES` from the source: file letters a..h. -/
def FILES : List Char := ['a', 'b', 'c', 'd', 'e', 'f', 'g', 'h']

/-- `RANKS` from the source: rank digits 1..8. -/
def RANKS : List Char := ['1', '2', '3', '4', '5', '6', '7', '8']

/-- `isWhitePiece`: `p === p.toUpperCase()` for a piece letter. -/
def isWhitePiece (p : Char) : Bool := p.toUpper = p

/-- The 12 recognized FEN piece letters (`PIECES` in the source). -/
def PIECES : List Char := ['k', 'q', 'r', 'b', 'n', 'p', 'K', 'Q', 'R', 'B', 'N', 'P']

/-- JS `Array.prototype.indexOf` on a character list: -1 when absent. -/
def jsIndexOf : List Char → Char → Int
  | [], _ => -1
  | c :: rest, a =>
    if c = a then 0
    else
      let i := jsIndexOf rest a
      if i = -1 then -1 else i + 1

/-- `List.getD` through an `Int` index; out of range gives the default
(JS indexing with a negative or too-large index gives `undefined`). -/
def getI (l : List Char) (i : Int) (d : Char) : Char :=
  if 0 ≤ i ∧ i < 8 then l.getD i.toNat d else d

/-- `sq(file, rank) = FILES[file] + RANKS[rank]`.  Out-of-range
coordinates produce the junk character `?` (JS would produce the string
"undefined"; such labels are never compared against real squares). -/
def sq (f r : Int) : String := String.mk [getI FILES f '?', getI RANKS r '?']

/-- `sqToFR(square)`: file/rank indices of a square label via `indexOf`
(-1 when the character is not a file letter / rank digit). -/
def sqToFR (s : String) : Int × Int :=
  (jsIndexOf FILES (s.data.getD 0 ' '), jsIndexOf RANKS (s.data.getD 1 ' '))

/-- `board[R][F]` as the JS reads do it; out-of-range reads give `none`. -/
def getB (b : Board) (R F : Int) : Option Char :=
  if 0 ≤ R ∧ R < 8 ∧ 0 ≤ F ∧ F < 8 then (b.getD R.toNat []).getD F.toNat none
  else none

/-- `board[R][F] = v`; out-of-range writes are dropped. -/
def setB (b : Board) (R F : Int) (v : Option Char) : Board :=
  if 0 ≤ R ∧ R < 8 ∧ 0 ≤ F ∧ F < 8 then
    b.set R.toNat ((b.getD R.toNat []).set F.toNat v)
  else b

/-- The state record produced by `parseFEN`:
`{ board, turn, castling, ep, halfmove, fullmove }`. -/
structure GameState where
  board : Board
  turn : String
  castling : String
  ep : String
  halfmove : Nat
  fullmove : Nat
deriving Repr, DecidableEq

/-- Whitespace test used for the `/\s+/` field split. -/
def isWs (c : Char) : Bool := c.isWhitespace

/-- Accumulator worker for the whitespace split. -/
def splitWsAux : List Char → List Char → List (List Char)
  | [], acc => if acc.isEmpty then [] else [acc.reverse]
  | c :: rest, acc =>
    if isWs c then
      if acc.isEmpty then splitWsAux rest [] else acc.reverse :: splitWsAux rest []
    else splitWsAux rest (c :: acc)

/-- `fen.trim().split(/\s+/)`: maximal runs of non-whitespace characters. -/
def splitWs (l : List Char) : List (List Char) := splitWsAux l []

/-- Accumulator worker for the single-character separator split. -/
def splitSepAux (sep : Char) : List Char → List Char → List (List Char)
  | [], acc => [acc.reverse]
  | c :: rest, acc =>
    if c = sep then acc.reverse :: splitSepAux sep rest []
    else splitSepAux sep rest (c :: acc)

/-- JS `String.prototype.split` with a one-character separator. -/
def splitSep (sep : Char) (l : List Char) : List (List Char) := splitSepAux sep l []

/-- The `/[1-8]/` test of the rank parser. -/
def isDigit18 (c : Char) : Bool := '1' ≤ c ∧ c ≤ '8'

/-- One row of the placement-field parser: walk the characters of a FEN
rank keeping the current file `c`, skipping `digit` files on a digit and
writing the piece letter otherwise. -/
def parseRowAux : List Char → Nat → List (Option Char) → List (Option Char)
  | [], _, arr => arr
  | ch :: rest, c, arr =>
    if isDigit18 ch then parseRowAux rest (c + (ch.toNat - '0'.toNat)) arr
    else parseRowAux rest (c + 1) (arr.set c (some ch))

/-- Parse one FEN rank into 8 optional pieces. -/
def parseRow (l : List Char) : List (Option Char) :=
  parseRowAux l 0 (List.replicate 8 none)

/-- Numeric value of a digit character. -/
def digitVal (c : Char) : Nat := c.toNat - '0'.toNat

/-- Digit-prefix accumulator of the `parseInt` model. -/
def jsParseIntAux : List Char → Nat → Nat
  | [], acc => acc
  | c :: rest, acc => if c.isDigit then jsParseIntAux rest (acc * 10 + digitVal c) else acc

/-- JS `parseInt(s, 10)` on the numerals the codec produces: value of the
longest digit prefix (0 when there is none, where JS would give NaN). -/
def jsParseInt (l : List Char) : Nat := jsParseIntAux l 0

/-- `parseFEN`: split the record into its six fields (missing trailing
fields default to `w - - 0 1`) and decode the placement field rank by
rank, FEN rank 8 first, into `board[rank][file]` with rank 0 = rank 1. -/
def parseFEN (fen : String) : GameState :=
  let parts := splitWs fen.data
  let boardPart := parts.getD 0 []
  let turn := String.mk (parts.getD 1 ['w'])
  let castling := String.mk (parts.getD 2 ['-'])
  let ep := String.mk (parts.getD 3 ['-'])
  let halfmove := jsParseInt (parts.getD 4 ['0'])
  let fullmove := jsParseInt (parts.getD 5 ['1'])
  let rows := splitSep '/' boardPart
  let board := (List.range 8).map fun r => parseRow (rows.getD (7 - r) [])
  { board := board, turn := turn, castling := castling, ep := ep,
    halfmove := halfmove, fullmove := fullmove }

/-- Decimal digit character (only ever applied to values below 10). -/
def digitChar : Nat → Char
  | 0 => '0' | 1 => '1' | 2 => '2' | 3 => '3' | 4 => '4'
  | 5 => '5' | 6 => '6' | 7 => '7' | 8 => '8' | 9 => '9'
  | _ => '?'

/-- Run-length encoder of one board rank, carrying the pending count of
empty squares exactly as `boardToFEN`'s inner loop does. -/
def encRowAux : List (Option Char) → Nat → List Char
  | [], e => if e = 0 then [] else [digitChar e]
  | none :: rest, e => encRowAux rest (e + 1)
  | some p :: rest, e =>
    (if e = 0 then [] else [digitChar e]) ++ p :: encRowAux rest 0

/-- Decimal rendering worker (fuel-based; `fuel ≥ n` suffices). -/
def natCharsAux : Nat → Nat → List Char
  | 0, _ => []
  | fuel + 1, n => if n = 0 then [] else natCharsAux fuel (n / 10) ++ [digitChar (n % 10)]

/-- Decimal rendering of a natural number (the `${...}` interpolation). -/
def natChars (n : Nat) : List Char := if n = 0 then ['0'] else natCharsAux n n

/-- Join the eight rank encodings with `/`. -/
def joinSlash : List (List Char) → List Char
  | [] => []
  | [x] => x
  | x :: xs => x ++ '/' :: joinSlash xs

/-- The placement field of `boardToFEN`: ranks 8 down to 1. -/
def encBoard (b : Board) : List Char :=
  joinSlash ((List.range 8).map fun i => encRowAux (b.getD (7 - i) []) 0)

/-- `boardToFEN`: placement, turn, `castling || "-"`, `ep || "-"`,
`halfmove || 0`, `fullmove || 1`, space separated. -/
def boardToFEN (st : GameState) : String :=
  let cast := if st.castling.data.isEmpty then ['-'] else st.castling.data
  let epF := if st.ep.data.isEmpty then ['-'] else st.ep.data
  let hm := natChars st.halfmove
  let fm := natChars (if st.fullmove = 0 then 1 else st.fullmove)
  String.mk (encBoard st.board ++ ' ' :: st.turn.data ++ ' ' :: cast ++ ' ' :: epF
    ++ ' ' :: hm ++ ' ' :: fm)

/-- `START_FEN` from the source. -/
def START_FEN : String := "rnbqkbnr/pppppppp/8/8/8/8/PPPPPPPP/RNBQKBNR w KQkq - 0 1"

/-- The initial `LightRules` state. -/
def startState : GameState := parseFEN START_FEN

/-- An intermediate entry of the `pushes` array of `movesFrom`:
`{f, r}`, optionally `ep: true` or `castle: 'K'/'Q'`.  Reading an absent
JS property gives `undefined`, modelled by the defaults. -/
structure Push where
  f : Int
  r : Int
  ep : Bool := false
  castle : Option Char := none
deriving Repr, DecidableEq

/-- A candidate move as returned by `movesFrom` after the final `map`:
`{from: sq(f,r), to: sq(rF,rR), ...rest}`.  The `captured` property is
never set by `LightRules.movesFrom` (only the chess.js adapter sets it);
reading it in `move` yields `undefined`, modelled as `none`. -/
structure Cand where
  fromSq : String
  toSq : String
  ep : Bool := false
  castle : Option Char := none
  captured : Option Char := none
deriving Repr, DecidableEq

/-- The `ray` helper of `movesFrom`: walk from `(F, R)` in direction
`(df, dr)`, pushing empty squares, stopping after an enemy square and at
an own piece or the board edge.  A ray visits at most 7 in-range squares,
so fuel 8 never binds when the walk starts on the board. -/
def rayAux (occ : Int → Int → Option Char) (isW : Bool) (df dr : Int) :
    Nat → Int → Int → List Push
  | 0, _, _ => []
  | fuel + 1, F, R =>
    if F < 0 ∨ F > 7 ∨ R < 0 ∨ R > 7 then []
    else
      match occ F R with
      | none => { f := F, r := R } :: rayAux occ isW df dr fuel (F + df) (R + dr)
      | some t => if isWhitePiece t ≠ isW then [{ f := F, r := R }] else []

/-- One pawn capture test (`for (const df of [-1, 1])` body). -/
def pawnCap (occ : Int → Int → Option Char) (isW : Bool) (f r dir df : Int) : List Push :=
  let F := f + df
  let R := r + dir
  if 0 ≤ F ∧ F < 8 ∧ 0 ≤ R ∧ R < 8 then
    match occ F R with
    | some t => if isWhitePiece t ≠ isW then [{ f := F, r := R }] else []
    | none => []
  else []

/-- One knight jump test. -/
def knightJump (occ : Int → Int → Option Char) (isW : Bool) (f r df dr : Int) : List Push :=
  let F := f + df
  let R := r + dr
  if F < 0 ∨ F > 7 ∨ R < 0 ∨ R > 7 then []
  else
    match occ F R with
    | none => [{ f := F, r := R }]
    | some t => if isWhitePiece t ≠ isW then [{ f := F, r := R }] else []

/-- One king step test (same occupancy rule as a knight jump). -/
def kingStep (occ : Int → Int → Option Char) (isW : Bool) (f r df dr : Int) : List Push :=
  knightJump occ isW f r df dr

/-- The `pushes` array computed by the `switch` of `movesFrom` for piece
`p` on `(f, r)`, in source push order. -/
def pushesFor (st : GameState) (p : Char) (isW : Bool) (f r : Int) : List Push :=
  let occ := fun (F R : Int) => getB st.board R F
  match p.toLower with
  | 'p' =>
    let dir : Int := if isW then 1 else -1
    let startRank : Int := if isW then 1 else 6
    let one := if (occ f (r + dir)).isNone then [{ f := f, r := r + dir : Push }] else []
    let two :=
      if r = startRank ∧ (occ f (r + dir)).isNone ∧ (occ f (r + 2 * dir)).isNone then
        [{ f := f, r := r + 2 * dir : Push }]
      else []
    let caps := pawnCap occ isW f r dir (-1) ++ pawnCap occ isW f r dir 1
    let epP :=
      if st.ep ≠ "" ∧ st.ep ≠ "-" then
        let e := sqToFR st.ep
        if e.2 = r + dir ∧ (e.1 - f).natAbs = 1 then
          [{ f := e.1, r := e.2, ep := true : Push }]
        else []
      else []
    one ++ two ++ caps ++ epP
  | 'n' =>
    knightJump occ isW f r 1 2 ++ knightJump occ isW f r 2 1 ++
    knightJump occ isW f r (-1) 2 ++ knightJump occ isW f r (-2) 1 ++
    knightJump occ isW f r 1 (-2) ++ knightJump occ isW f r 2 (-1) ++
    knightJump occ isW f r (-1) (-2) ++ knightJump occ isW f r (-2) (-1)
  | 'b' =>
    rayAux occ isW 1 1 8 (f + 1) (r + 1) ++ rayAux occ isW (-1) 1 8 (f - 1) (r + 1) ++
    rayAux occ isW 1 (-1) 8 (f + 1) (r - 1) ++ rayAux occ isW (-1) (-1) 8 (f - 1) (r - 1)
  | 'r' =>
    rayAux occ isW 1 0 8 (f + 1) r ++ rayAux occ isW (-1) 0 8 (f - 1) r ++
    rayAux occ isW 0 1 8 f (r + 1) ++ rayAux occ isW 0 (-1) 8 f (r - 1)
  | 'q' =>
    rayAux occ isW 1 0 8 (f + 1) r ++ rayAux occ isW (-1) 0 8 (f - 1) r ++
    rayAux occ isW 0 1 8 f (r + 1) ++ rayAux occ isW 0 (-1) 8 f (r - 1) ++
    rayAux occ isW 1 1 8 (f + 1) (r + 1) ++ rayAux occ isW (-1) 1 8 (f - 1) (r + 1) ++
    rayAux occ isW 1 (-1) 8 (f + 1) (r - 1) ++ rayAux occ isW (-1) (-1) 8 (f - 1) (r - 1)
  | 'k' =>
    let steps :=
      kingStep occ isW f r (-1) (-1) ++ kingStep occ isW f r (-1) 0 ++
      kingStep occ isW f r (-1) 1 ++ kingStep occ isW f r 0 (-1) ++
      kingStep occ isW f r 0 1 ++ kingStep occ isW f r 1 (-1) ++
      kingStep occ isW f r 1 0 ++ kingStep occ isW f r 1 1
    let ksC :=
      if (isW ∧ 'K' ∈ st.castling.data) ∨ (¬isW ∧ 'k' ∈ st.castling.data) then
        if (occ 5 r).isNone ∧ (occ 6 r).isNone then
          [{ f := 6, r := r, castle := some 'K' : Push }]
        else []
      else []
    let qsC :=
      if (isW ∧ 'Q' ∈ st.castling.data) ∨ (¬isW ∧ 'q' ∈ st.castling.data) then
        if (occ 1 r).isNone ∧ (occ 2 r).isNone ∧ (occ 3 r).isNone then
          [{ f := 2, r := r, castle := some 'Q' : Push }]
        else []
      else []
    steps ++ ksC ++ qsC
  | _ => []

/-- `LightRules.movesFrom(square)`: empty when the square is empty or the
occupant's color is not the side to move; otherwise the piece's pushes
mapped to `{from, to, ...rest}` candidates. -/
def movesFrom (st : GameState) (square : String) : List Cand :=
  let fr := sqToFR square
  match getB st.board fr.2 fr.1 with
  | none => []
  | some p =>
    let isW := isWhitePiece p
    let me := if isW then "w" else "b"
    if me ≠ st.turn then []
    else
      (pushesFor st p isW fr.1 fr.2).map fun pu =>
        { fromSq := sq fr.1 fr.2, toSq := sq pu.f pu.r, ep := pu.ep, castle := pu.castle,
          captured := none }

/-- The enriched move record of a successful `move` result. -/
structure MoveRec where
  fromSq : String
  toSq : String
  piece : Char
  captured : Option Char
  before : List (String × Char)
  after : List (String × Char)
deriving Repr, DecidableEq

/-- `boardToArr`: occupant list `(square, piece)` in row-major order. -/
def boardToArr (b : Board) : List (String × Char) :=
  (List.range 8).flatMap fun r =>
    (List.range 8).filterMap fun f =>
      (getB b (r : Int) (f : Int)).map fun p => (sq (f : Int) (r : Int), p)

/-- `LightRules.move`'s result: `{ok: false, reason}` or
`{ok: true, state, fen, move}`. -/
inductive MoveResult where
  | fail (reason : String)
  | ok (state : GameState) (fen : String) (mv : MoveRec)
deriving Repr, DecidableEq

/-- `res.ok` of a move result. -/
def MoveResult.isOk : MoveResult → Bool
  | .fail _ => false
  | .ok _ _ _ => true

/-- The state carried by a successful result (default otherwise). -/
def MoveResult.stateD : MoveResult → GameState → GameState
  | .fail _, d => d
  | .ok s _ _, _ => s

/-- The record carried by a successful result (default otherwise). -/
def MoveResult.fenD : MoveResult → String → String
  | .fail _, d => d
  | .ok _ f _, _ => f

/-- The enriched move carried by a successful result (default otherwise). -/
def MoveResult.mvD : MoveResult → MoveRec → MoveRec
  | .fail _, d => d
  | .ok _ _ m, _ => m

/-- The board mutations of `move`'s application phase, in source order:
en-passant clear, piece relocation, promotion replacement, rook shift of
a castle. -/
def applyBoard (board : Board) (a b : Int × Int) (p : Char) (mv : Cand)
    (promotion : Option Char) : Board :=
  let isW := isWhitePiece p
  let dir : Int := if isW then 1 else -1
  let board1 := if mv.ep then setB board (b.2 - dir) b.1 none else board
  let board2 := setB board1 b.2 b.1 (some p)
  let board3 := setB board2 a.2 a.1 none
  let board4 :=
    if p.toLower = 'p' ∧ (b.2 = 7 ∨ b.2 = 0) then
      let promo := promotion.getD 'q'
      setB board3 b.2 b.1 (some (if isW then promo.toUpper else promo.toLower))
    else board3
  if p.toLower = 'k' ∧ (b.1 - a.1).natAbs = 2 then
    if b.1 = 6 then setB (setB board4 a.2 5 (getB board4 a.2 7)) a.2 7 none
    else if b.1 = 2 then setB (setB board4 a.2 3 (getB board4 a.2 0)) a.2 0 none
    else board4
  else board4

/-- The castling-rights update of `move`: on a castle, drop the first
occurrence of each of the mover's letters (`replace(x, "")`). -/
def applyCastling (castling : String) (isW castled : Bool) : String :=
  if castled then
    if isW then String.mk ((castling.data.erase 'K').erase 'Q')
    else String.mk ((castling.data.erase 'k').erase 'q')
  else castling

/-- The state produced by the application phase of `move` (everything
after validation), mutating the cloned state in source order. -/
def applyMoveState (st : GameState) (a b : Int × Int) (p : Char) (mv : Cand)
    (promotion : Option Char) : GameState :=
  let isW := isWhitePiece p
  let dir : Int := if isW then 1 else -1
  let turn' := if st.turn = "w" then "b" else "w"
  { board := applyBoard st.board a b p mv promotion,
    turn := turn',
    castling := applyCastling st.castling isW (p.toLower = 'k' ∧ (b.1 - a.1).natAbs = 2),
    ep := if p.toLower = 'p' ∧ (b.2 - a.2).natAbs = 2 then sq a.1 (a.2 + dir) else "-",
    halfmove := if p.toLower = 'p' ∨ mv.captured.isSome then 0 else st.halfmove + 1,
    fullmove :=
      if turn' = "w" then (if st.fullmove = 0 then 1 else st.fullmove) + 1
      else st.fullmove }

/-- `LightRules.move({from, to, promotion})`: validate (reasons `empty`,
`turn`, `illegal`, in that order), then apply on a clone and return the
new state, its record, and the enriched move with before/after occupant
lists. -/
def move (st : GameState) (fromS toS : String) (promotion : Option Char) : MoveResult :=
  let a := sqToFR fromS
  let b := sqToFR toS
  match getB st.board a.2 a.1 with
  | none => .fail "empty"
  | some p =>
    let isW := isWhitePiece p
    if (isW ∧ st.turn ≠ "w") ∨ (¬isW ∧ st.turn ≠ "b") then .fail "turn"
    else
      match (movesFrom st fromS).find? (fun m => m.toSq == toS) with
      | none => .fail "illegal"
      | some mv =>
        let st' := applyMoveState st a b p mv promotion
        .ok st' (boardToFEN st')
          { fromSq := fromS, toSq := toS, piece := p, captured := mv.captured,
            before := boardToArr st.board, after := boardToArr st'.board }

/-- Fold a list of `(from, to)` requests through `move` (no promotion
argument), failing the whole sequence when one move is rejected. -/
def applyMoves : GameState → List (String × String) → Option GameState
  | st, [] => some st
  | st, (a, b) :: rest =>
    match move st a b none with
    | .ok st' _ _ => applyMoves st' rest
    | .fail _ => none

/-- Row-major square enumeration `(r, f)`, rank 0 to 7, file 0 to 7, as
scanned by `findPiece` and `_animateTo`. -/
def allSquares : List (Nat × Nat) :=
  (List.range 8).flatMap fun r => (List.range 8).map fun f => (r, f)

/-- The per-square test of `findPiece`:
`board[r][f] === piece && startBoard[r][f] !== piece`. -/
def matchCond (board startBoard : Board) (piece : Char) (r f : Nat) : Bool :=
  (getB board (r : Int) (f : Int) == some piece) &&
    !(getB startBoard (r : Int) (f : Int) == some piece)

/-- `findPiece(board, piece, r0, f0, startBoard)`: the first square in
row-major order holding `piece` in `board` but not in `startBoard`.
The `r0`, `f0` parameters are unused, as in the source. -/
def findPiece (board : Board) (piece : Char) (r0 f0 : Int) (startBoard : Board) :
    Option (Nat × Nat) :=
  let _ := r0
  let _ := f0
  allSquares.find? fun q => matchCond board startBoard piece q.1 q.2

/-- The `movingMap` built by `_animateTo`: for every square whose
occupant in `start` is absent or different in `end`, pair `sq(f, r)` with
the square `findPiece` locates (no entry when it finds none). -/
def movingMap (startB endB : Board) : List (String × String) :=
  allSquares.filterMap fun q =>
    match getB startB (q.1 : Int) (q.2 : Int) with
    | none => none
    | some a =>
      if getB endB (q.1 : Int) (q.2 : Int) == some a then none
      else
        match findPiece endB a (q.1 : Int) (q.2 : Int) startB with
        | none => none
        | some (R, F) => some (sq (q.2 : Int) (q.1 : Int), sq (F : Int) (R : Int))

/-- A `LightRules` instance: the engine owns one state record. -/
structure Engine where
  st : GameState
deriving Repr, DecidableEq

/-- `getFEN()`: encode the engine's own state. -/
def Engine.getFEN (e : Engine) : String := boardToFEN e.st

/-- `setFEN(f)`: replace the engine's own state by the parsed record. -/
def Engine.setFEN (_ : Engine) (f : String) : Engine := ⟨parseFEN f⟩

/-- `LightRules.move` as a method: the source mutates only the cloned
state `s.state`, never `this.state`, so the engine after the call is the
engine before it, and the produced position lives only in the result. -/
def Engine.moveE (e : Engine) (fromS toS : String) (promotion : Option Char) :
    Engine × MoveResult :=
  (⟨e.st⟩, move e.st fromS toS promotion)

/-- Promotion letters admitted at the interface boundary: absent, or one
of `q`, `r`, `b`, `n` (spec §6). -/
def promoOK : List (Option Char) := [none, some 'q', some 'r', some 'b', some 'n']

/-- Positions reachable from the initial position through the Move
Executor: the parsed `START_FEN`, closed under successful `move` calls
with an interface-conforming promotion argument. -/
inductive Reachable : GameState → Prop
  | init : Reachable startState
  | step {st st' : GameState} {f t : String} {pr : Option Char} {fen : String}
      {mv : MoveRec} : Reachable st → pr ∈ promoOK →
      move st f t pr = .ok st' fen mv → Reachable st'

/-- A recognized FEN piece letter. -/
def validPiece (c : Char) : Bool := c ∈ PIECES

/-- Validity of one board cell: empty, or a recognized piece letter. -/
def sqOK (b : Board) (r f : Nat) : Bool :=
  match getB b (r : Int) (f : Int) with
  | none => true
  | some c => validPiece c

/-- An 8-row board whose first eight rows have eight cells each. -/
def dims8 (b : Board) : Prop :=
  b.length = 8 ∧ ∀ i : Nat, i < 8 → (b.getD i []).length = 8

/-- Every occupied cell of the board holds a recognized piece letter. -/
def boardOK (b : Board) : Prop :=
  ∀ (R F : Int) (c : Char), getB b R F = some c → validPiece c = true

/-- Well-formedness of a state: an 8×8 board of recognized piece letters,
a two-valued turn, duplicate-free castling letters among `KQkq`, a
nonempty whitespace-free en-passant field, and a nonzero fullmove number.
Every reachable state satisfies it. -/
def WF (st : GameState) : Prop :=
  st.board.length = 8 ∧
  (∀ i : Nat, i < 8 → (st.board.getD i []).length = 8) ∧
  (∀ r : Nat, r < 8 → ∀ f : Nat, f < 8 → sqOK st.board r f = true) ∧
  (st.turn = "w" ∨ st.turn = "b") ∧
  st.castling.data.Nodup ∧
  (∀ c ∈ st.castling.data, c ∈ (['K', 'Q', 'k', 'q'] : List Char)) ∧
  st.ep ≠ "" ∧ (∀ c ∈ st.ep.data, isWs c = false) ∧
  st.fullmove ≠ 0

instance : DecidablePred WF := fun st => by unfold WF; infer_instance

/-- A placeholder move record for the `mvD` projection. -/
def dummyRec : MoveRec := ⟨"", "", ' ', none, [], []⟩

/-- 1.Nc3 d5, reaching a position where the knight can capture on d5. -/
def capSeq : List (String × String) := [("b1", "c3"), ("d7", "d5")]

/-- The position after 1.Nc3 d5 (white to move, halfmove clock 0). -/
def capState : GameState := (applyMoves startState capSeq).getD startState

/-- The result of the capture 2.Nxd5. -/
def capRes : MoveResult := move capState "c3" "d5" none

/-- The result and state of e2–e4 from the initial position. -/
def e4res : MoveResult := move startState "e2" "e4" none

/-- The position after 1.e4. -/
def e4st : GameState := e4res.stateD startState

/-- The claim's castling scenario: white king e1, rook h1, f1/g1 empty,
white to move, castling rights `K`. -/
def c7scn : GameState := parseFEN "4k3/8/8/8/8/8/8/4K2R w K - 0 1"

/-- The castle `move(e1, g1)` in that scenario. -/
def c7res : MoveResult := move c7scn "e1" "g1" none

/-- A sequence that empties h1 while keeping the kingside castling right:
1.h4 a6 2.Rh3 b6 3.Nf3 c6 4.g3 d6 5.Bg2 e6. -/
def c7seq : List (String × String) :=
  [("h2", "h4"), ("a7", "a6"), ("h1", "h3"), ("b7", "b6"), ("g1", "f3"),
   ("c7", "c6"), ("g2", "g3"), ("d7", "d6"), ("f1", "g2"), ("e7", "e6")]

/-- The reachable position after `c7seq`: e1 king, empty f1/g1/h1, rights
still `KQkq`. -/
def c7pre : GameState := (applyMoves startState c7seq).getD startState

/-- Castling kingside from `c7pre`, where no rook sits on h1. -/
def noRookRes : MoveResult := move c7pre "e1" "g1" none

/-- A game in which both sides castle kingside: 1.Nf3 Nf6 2.e3 e6 3.Be2
Be7 4.O-O O-O, emptying the castling-rights record. -/
def c1seq : List (String × String) :=
  [("g1", "f3"), ("g8", "f6"), ("e2", "e3"), ("e7", "e6"), ("f1", "e2"),
   ("f8", "e7"), ("e1", "g1"), ("e8", "g8")]

/-- The reachable position after `c1seq`, whose castling field is the
empty string. -/
def c1state : GameState := (applyMoves startState c1seq).getD startState

/-- `decode ∘ encode` normalizes an empty castling field to `-` (the
`state.castling || "-"` fallback of `boardToFEN`); it is the identity on
every other field of a well-formed state. -/
def normCast (st : GameState) : GameState :=
  { st with castling := if st.castling = "" then "-" else st.castling }



/-- A square label has two characters, so it is never the string `-`. -/
theorem sq_ne_dash (f r : Int) : sq f r ≠ "-" := by
  intro h
  have h2 := congrArg (fun s => s.data.length) h
  simp [sq] at h2

section MoveLemmas

/-- A nonempty `movesFrom` result pins down the occupant and the turn:
the origin square holds a piece whose color string is the side to move. -/
theorem exists_of_mem_movesFrom {st : GameState} {s : String} {m : Cand}
    (h : m ∈ movesFrom st s) :
    ∃ p, getB st.board (sqToFR s).2 (sqToFR s).1 = some p ∧
      (if isWhitePiece p then "w" else "b") = st.turn := by
  simp only [movesFrom] at h
  cases hp : getB st.board (sqToFR s).2 (sqToFR s).1 with
  | none => rw [hp] at h; simp at h
  | some p =>
    rw [hp] at h
    dsimp only at h
    refine ⟨p, rfl, ?_⟩
    by_cases ht : (if isWhitePiece p then "w" else "b") = st.turn
    · exact ht
    · rw [if_pos ht] at h; simp at h

/-- Every candidate produced by `movesFrom` carries `captured = none`:
the final `map` of `movesFrom` never sets that property. -/
theorem captured_none_of_mem_movesFrom {st : GameState} {s : String} {m : Cand}
    (h : m ∈ movesFrom st s) : m.captured = none := by
  simp only [movesFrom] at h
  cases hp : getB st.board (sqToFR s).2 (sqToFR s).1 with
  | none => rw [hp] at h; simp at h
  | some p =>
    rw [hp] at h
    dsimp only at h
    by_cases ht : (if isWhitePiece p then "w" else "b") ≠ st.turn
    · rw [if_pos ht] at h; simp at h
    · rw [if_neg ht] at h
      obtain ⟨pu, _, rfl⟩ := List.mem_map.mp h
      rfl

/-- Inversion of a successful `move`: the origin was occupied, a matching
candidate was found, and the result fields are the applied clone, its
record, and the enriched move. -/
theorem move_ok_inversion {st : GameState} {f t : String} {pr : Option Char}
    {st' : GameState} {fen : String} {mvr : MoveRec}
    (h : move st f t pr = .ok st' fen mvr) :
    ∃ p cand, getB st.board (sqToFR f).2 (sqToFR f).1 = some p ∧
      (movesFrom st f).find? (fun m => m.toSq == t) = some cand ∧
      st' = applyMoveState st (sqToFR f) (sqToFR t) p cand pr ∧
      fen = boardToFEN st' ∧
      mvr = { fromSq := f, toSq := t, piece := p, captured := cand.captured,
              before := boardToArr st.board, after := boardToArr st'.board } := by
  simp only [move] at h
  cases hp : getB st.board (sqToFR f).2 (sqToFR f).1 with
  | none => rw [hp] at h; exact absurd h (by simp)
  | some p =>
    rw [hp] at h
    dsimp only at h
    by_cases hturn :
        (isWhitePiece p = true ∧ st.turn ≠ "w") ∨ (¬isWhitePiece p = true ∧ st.turn ≠ "b")
    · rw [if_pos hturn] at h; exact absurd h (by simp)
    · rw [if_neg hturn] at h
      cases hf : (movesFrom st f).find? (fun m => m.toSq == t) with
      | none => rw [hf] at h; exact absurd h (by simp)
      | some cand =>
        rw [hf] at h
        refine ⟨p, cand, rfl, rfl, ?_⟩
        cases h
        exact ⟨rfl, rfl, rfl⟩

end MoveLemmas

/-- C2.  Every candidate move returned by `movesFrom` is accepted by the
executor: `move` from the candidate's origin to its destination (no
promotion argument) returns a success result. -/
theorem movesFrom_candidates_accepted (st : GameState) (s : String) (m : Cand)
    (h : m ∈ movesFrom st s) : (move st s m.toSq none).isOk = true := by
  obtain ⟨p, hp, ht⟩ := exists_of_mem_movesFrom h
  have hfind : ((movesFrom st s).find? (fun m' => m'.toSq == m.toSq)).isSome := by
    apply List.find?_isSome.mpr
    exact ⟨m, h, by simp⟩
  obtain ⟨mv, hmv⟩ := Option.isSome_iff_exists.mp hfind
  simp only [move]
  rw [hp]
  dsimp only
  have hturn :
      ¬((isWhitePiece p = true ∧ st.turn ≠ "w") ∨ (¬isWhitePiece p = true ∧ st.turn ≠ "b")) := by
    by_cases hw : isWhitePiece p
    · rw [if_pos hw] at ht
      simp [hw, ← ht]
    · rw [if_neg hw] at ht
      simp [hw, ← ht]
  rw [if_neg hturn, hmv]
  rfl

/-- Witness for C2: from the initial position the single-step pawn push
e2–e3 is produced by `movesFrom` and accepted by `move`. -/
theorem movesFrom_candidates_accepted_witness :
    (⟨"e2", "e3", false, none, none⟩ : Cand) ∈ movesFrom startState "e2" ∧
      (move startState "e2" "e3" none).isOk = true :=
  ⟨by decide, movesFrom_candidates_accepted startState "e2" ⟨"e2", "e3", false, none, none⟩
    (by decide)⟩

/-- C3.  `move` validates in the order empty → turn → illegal, never
raises (every outcome is a success or one of the three structured
failures), and the two initial-position scenarios fail with reasons
`turn` and `illegal` respectively. -/
theorem move_validation_order :
    (∀ (st : GameState) (fromS toS : String) (pr : Option Char),
      getB st.board (sqToFR fromS).2 (sqToFR fromS).1 = none →
      move st fromS toS pr = .fail "empty") ∧
    (∀ (st : GameState) (fromS toS : String) (pr : Option Char) (p : Char),
      getB st.board (sqToFR fromS).2 (sqToFR fromS).1 = some p →
      ((isWhitePiece p = true ∧ st.turn ≠ "w") ∨ (¬isWhitePiece p = true ∧ st.turn ≠ "b")) →
      move st fromS toS pr = .fail "turn") ∧
    (∀ (st : GameState) (fromS toS : String) (pr : Option Char) (p : Char),
      getB st.board (sqToFR fromS).2 (sqToFR fromS).1 = some p →
      ¬((isWhitePiece p = true ∧ st.turn ≠ "w") ∨ (¬isWhitePiece p = true ∧ st.turn ≠ "b")) →
      (∀ m ∈ movesFrom st fromS, m.toSq ≠ toS) →
      move st fromS toS pr = .fail "illegal") ∧
    (∀ (st : GameState) (fromS toS : String) (pr : Option Char),
      (move st fromS toS pr).isOk = true ∨ move st fromS toS pr = .fail "empty" ∨
      move st fromS toS pr = .fail "turn" ∨ move st fromS toS pr = .fail "illegal") ∧
    move startState "e7" "e5" none = .fail "turn" ∧
    move startState "e2" "e5" none = .fail "illegal" := by
  refine ⟨?_, ?_, ?_, ?_, by decide, by decide⟩
  · intro st fromS toS pr hp
    simp only [move]
    rw [hp]
  · intro st fromS toS pr p hp hturn
    simp only [move]
    rw [hp]
    dsimp only
    rw [if_pos hturn]
  · intro st fromS toS pr p hp hturn hnone
    have hf : (movesFrom st fromS).find? (fun m => m.toSq == toS) = none := by
      rw [List.find?_eq_none]
      intro m hm
      simpa using hnone m hm
    simp only [move]
    rw [hp]
    dsimp only
    rw [if_neg hturn, hf]
  · intro st fromS toS pr
    simp only [move]
    cases getB st.board (sqToFR fromS).2 (sqToFR fromS).1 with
    | none => simp
    | some p =>
      dsimp only
      by_cases hturn :
          (isWhitePiece p = true ∧ st.turn ≠ "w") ∨ (¬isWhitePiece p = true ∧ st.turn ≠ "b")
      · rw [if_pos hturn]; simp
      · rw [if_neg hturn]
        cases (movesFrom st fromS).find? (fun m => m.toSq == toS) with
        | none => simp
        | some cand => simp [MoveResult.isOk]

/-- Witness for C3: the general clauses applied at concrete inputs — an
empty origin square (a3) fails with `empty`, and the two scenario moves
fail with `turn` and `illegal`. -/
theorem move_validation_order_witness :
    move startState "a3" "a4" none = .fail "empty" ∧
      move startState "e7" "e5" none = .fail "turn" ∧
      move startState "e2" "e5" none = .fail "illegal" :=
  ⟨move_validation_order.1 startState "a3" "a4" none (by decide),
    move_validation_order.2.2.2.2.1, move_validation_order.2.2.2.2.2⟩

/-- Every successful `move` reports `captured = none`: the result copies
`mv.captured` from the matched candidate, and `movesFrom` never sets it. -/
theorem move_captured_none {st : GameState} {f t : String} {pr : Option Char}
    {st' : GameState} {fen : String} {mvr : MoveRec}
    (h : move st f t pr = .ok st' fen mvr) : mvr.captured = none := by
  obtain ⟨p, cand, _, hf, _, _, hmv⟩ := move_ok_inversion h
  rw [hmv]
  exact captured_none_of_mem_movesFrom (List.mem_of_find?_eq_some hf)




/-- C4.  Failing input for the halfmove-clock rule: after 1.Nc3 d5 the
knight capture 2.Nxd5 removes the black pawn from d5, yet the resulting
halfmove clock is 1 (previous clock 0, incremented) instead of the 0 the
claim requires for a capture — the candidate's `captured` property is
never set, so the capture branch of the clock update is unreachable. -/
theorem halfmove_clock_capture_bug :
    applyMoves startState capSeq = some capState ∧
      capState.halfmove = 0 ∧
      getB capState.board 4 3 = some 'p' ∧
      getB capState.board 2 2 = some 'N' ∧
      capRes.isOk = true ∧
      getB (capRes.stateD startState).board 4 3 = some 'N' ∧
      (capRes.stateD startState).halfmove = 1 := by decide

/-- C5.  Failing input for the captured-piece report: the same capture
2.Nxd5 removes the black pawn on d5, but the returned move record carries
`captured = none` (the source's `mv.captured || null` always takes the
`null` branch for the fallback engine). -/
theorem captured_field_bug :
    capRes.isOk = true ∧
      getB capState.board 4 3 = some 'p' ∧
      capState.turn = "w" ∧
      (capRes.mvD dummyRec).piece = 'N' ∧
      (capRes.mvD dummyRec).captured = none := by decide

/-- C6.  The en-passant invariant of the executor: after any successful
move the en-passant field is non-empty exactly when the moved piece was a
pawn advancing two ranks, and in that case it is the square the pawn
passed over (origin file, origin rank plus the pawn's direction). -/
theorem ep_target_iff_double_push (st : GameState) (f t : String) (pr : Option Char)
    (st' : GameState) (fen : String) (mvr : MoveRec) (p : Char)
    (hmove : move st f t pr = .ok st' fen mvr)
    (hp : getB st.board (sqToFR f).2 (sqToFR f).1 = some p) :
    (st'.ep ≠ "-" ↔ p.toLower = 'p' ∧ ((sqToFR t).2 - (sqToFR f).2).natAbs = 2) ∧
      (p.toLower = 'p' ∧ ((sqToFR t).2 - (sqToFR f).2).natAbs = 2 →
        st'.ep = sq (sqToFR f).1 ((sqToFR f).2 + if isWhitePiece p then 1 else -1)) := by
  obtain ⟨p', cand, hp', _, hst', _, _⟩ := move_ok_inversion hmove
  rw [hp] at hp'
  cases hp'
  have hep : st'.ep =
      if p.toLower = 'p' ∧ ((sqToFR t).2 - (sqToFR f).2).natAbs = 2 then
        sq (sqToFR f).1 ((sqToFR f).2 + if isWhitePiece p then 1 else -1)
      else "-" := by
    rw [hst']
    simp only [applyMoveState]
  rw [hep]
  by_cases hc : p.toLower = 'p' ∧ ((sqToFR t).2 - (sqToFR f).2).natAbs = 2
  · rw [if_pos hc]
    exact ⟨iff_of_true (sq_ne_dash _ _) hc, fun _ => rfl⟩
  · rw [if_neg hc]
    exact ⟨iff_of_false (by simp) hc, fun h => absurd h hc⟩



/-- Witness for C6: after 1.e4 the en-passant target is `e3` and the
field is non-empty. -/
theorem ep_target_iff_double_push_witness : e4st.ep = "e3" ∧ e4st.ep ≠ "-" := by
  have h : move startState "e2" "e4" none = .ok e4st (e4res.fenD "") (e4res.mvD dummyRec) := by
    decide
  have h2 := ep_target_iff_double_push startState "e2" "e4" none e4st (e4res.fenD "")
    (e4res.mvD dummyRec) 'P' h (by decide)
  refine ⟨?_, h2.1.mpr (by decide)⟩
  rw [h2.2 (by decide)]
  decide

section BoardLemmas

/-- `List.set` then `getD` at a different index reads the old list. -/
theorem getD_set_ne {α : Type} (l : List α) (i j : Nat) (a d : α) (h : i ≠ j) :
    (l.set i a).getD j d = l.getD j d := by
  simp [List.getD_eq_getElem?_getD, List.getElem?_set_ne h]

/-- `List.set` then `getD` at the written in-range index reads the value. -/
theorem getD_set_self {α : Type} (l : List α) (i : Nat) (a d : α) (h : i < l.length) :
    (l.set i a).getD i d = a := by
  simp [List.getD_eq_getElem?_getD, List.getElem?_set_self, h]

/-- `setB` never changes the number of rows. -/
theorem length_setB (b : Board) (R F : Int) (v : Option Char) :
    (setB b R F v).length = b.length := by
  unfold setB
  split
  · exact List.length_set b _ _
  · rfl

/-- `setB` never changes the length of any row. -/
theorem getD_length_setB (b : Board) (R F : Int) (v : Option Char) (i : Nat) :
    ((setB b R F v).getD i []).length = (b.getD i []).length := by
  unfold setB
  by_cases hw : 0 ≤ R ∧ R < 8 ∧ 0 ≤ F ∧ F < 8
  · rw [if_pos hw]
    by_cases hi : R.toNat = i
    · subst hi
      by_cases hlt : R.toNat < b.length
      · rw [getD_set_self _ _ _ _ hlt, List.length_set]
      · rw [List.set_eq_of_length_le (by omega)]
    · rw [getD_set_ne _ _ _ _ _ hi]
  · rw [if_neg hw]

/-- `setB` preserves the 8×8 shape. -/
theorem dims8_setB {b : Board} (h : dims8 b) (R F : Int) (v : Option Char) :
    dims8 (setB b R F v) := by
  refine ⟨?_, fun i hi => ?_⟩
  · rw [length_setB]; exact h.1
  · rw [getD_length_setB]; exact h.2 i hi

/-- Reading a square other than the one written is unchanged (no shape
assumptions: out-of-range writes are dropped on both sides). -/
theorem getB_setB_ne (b : Board) (R F R' F' : Int) (v : Option Char)
    (h : R ≠ R' ∨ F ≠ F') : getB (setB b R F v) R' F' = getB b R' F' := by
  unfold setB getB
  by_cases hw : 0 ≤ R ∧ R < 8 ∧ 0 ≤ F ∧ F < 8
  case neg => rw [if_neg hw]
  rw [if_pos hw]
  by_cases hr : 0 ≤ R' ∧ R' < 8 ∧ 0 ≤ F' ∧ F' < 8
  case neg => rw [if_neg hr, if_neg hr]
  rw [if_pos hr, if_pos hr]
  by_cases hRR : R.toNat = R'.toNat
  · have hReq : R = R' := by omega
    have hF : F ≠ F' := by
      rcases h with h | h
      · exact absurd hReq h
      · exact h
    have hFF : F.toNat ≠ F'.toNat := by omega
    rw [← hRR]
    by_cases hlt : R.toNat < b.length
    · rw [getD_set_self _ _ _ _ hlt, getD_set_ne _ _ _ _ _ hFF]
    · rw [List.set_eq_of_length_le (by omega)]
  · rw [getD_set_ne _ _ _ _ _ hRR]

/-- Reading the square just written on an 8×8 board gives the value. -/
theorem getB_setB_same (b : Board) (R F : Int) (v : Option Char)
    (hd : dims8 b) (hR : 0 ≤ R ∧ R < 8) (hF : 0 ≤ F ∧ F < 8) :
    getB (setB b R F v) R F = v := by
  have hlen : b.length = 8 := hd.1
  have hrow : (b.getD R.toNat []).length = 8 := hd.2 R.toNat (by omega)
  unfold setB getB
  rw [if_pos ⟨hR.1, hR.2, hF.1, hF.2⟩, if_pos ⟨hR.1, hR.2, hF.1, hF.2⟩]
  rw [getD_set_self _ _ _ _ (by omega), getD_set_self _ _ _ _ (by omega)]

/-- Any read after a `setB` sees either the old cell or the new value. -/
theorem getB_setB_cases (b : Board) (R F R' F' : Int) (v : Option Char) :
    getB (setB b R F v) R' F' = getB b R' F' ∨ getB (setB b R F v) R' F' = v := by
  by_cases h : R = R' ∧ F = F'
  · obtain ⟨rfl, rfl⟩ := h
    unfold setB getB
    by_cases hw : 0 ≤ R ∧ R < 8 ∧ 0 ≤ F ∧ F < 8
    · simp only [if_pos hw]
      by_cases hlt : R.toNat < b.length
      · rw [getD_set_self _ _ _ _ hlt]
        by_cases hflt : F.toNat < (b.getD R.toNat []).length
        · right; exact getD_set_self _ _ _ _ hflt
        · left
          rw [List.set_eq_of_length_le (by omega)]
      · left
        rw [List.set_eq_of_length_le (by omega)]
    · simp only [if_neg hw]
      left; trivial
  · left
    apply getB_setB_ne
    tauto

/-- Writing an empty cell or a recognized letter keeps the board valid. -/
theorem boardOK_setB {b : Board} (h : boardOK b) {v : Option Char}
    (hv : ∀ c, v = some c → validPiece c = true) (R F : Int) : boardOK (setB b R F v) := by
  intro R' F' c hc
  rcases getB_setB_cases b R F R' F' v with hcase | hcase
  · exact h R' F' c (hcase ▸ hc)
  · exact hv c (hcase ▸ hc)

end BoardLemmas

section CastleLemmas

/-- Board effect of a kingside castle execution: the king lands on file
6, the contents of the corner file 7 (whatever they are) move to file 5,
and the corner and the origin file 4 are cleared. -/
theorem applyBoard_castle_K (board : Board) (r : Int) (p : Char) (cand : Cand)
    (pr : Option Char) (hd : dims8 board) (hr : 0 ≤ r ∧ r < 8) (hk : p.toLower = 'k') :
    getB (applyBoard board (4, r) (6, r) p cand pr) r 6 = some p ∧
      getB (applyBoard board (4, r) (6, r) p cand pr) r 5 = getB board r 7 ∧
      getB (applyBoard board (4, r) (6, r) p cand pr) r 7 = none ∧
      getB (applyBoard board (4, r) (6, r) p cand pr) r 4 = none := by
  obtain ⟨B1, hB1d, hB1r, hT⟩ : ∃ B1, dims8 B1 ∧ (∀ F' : Int, getB B1 r F' = getB board r F') ∧
      applyBoard board (4, r) (6, r) p cand pr =
        setB (setB (setB (setB B1 r 6 (some p)) r 4 none) r 5
          (getB (setB (setB B1 r 6 (some p)) r 4 none) r 7)) r 7 none := by
    refine ⟨if cand.ep = true then
        setB board (r - if isWhitePiece p then (1 : Int) else -1) 6 none else board,
      ?_, ?_, ?_⟩
    · split
      · exact dims8_setB hd _ _ _
      · exact hd
    · intro F'
      split
      · apply getB_setB_ne
        left
        split <;> omega
      · rfl
    · have hpn : ¬(p.toLower = 'p' ∧ ((r : Int) = 7 ∨ (r : Int) = 0)) := by
        rw [hk]; rintro ⟨h1, _⟩; exact absurd h1 (by decide)
      have hcc : p.toLower = 'k' ∧ (((6 : Int) - 4).natAbs = 2) := ⟨hk, by decide⟩
      dsimp only [applyBoard]
      rw [if_neg hpn, if_pos hcc, if_pos (rfl : (6 : Int) = 6)]
  have hB2d : dims8 (setB B1 r 6 (some p)) := dims8_setB hB1d _ _ _
  have hB4d : dims8 (setB (setB B1 r 6 (some p)) r 4 none) := dims8_setB hB2d _ _ _
  have hB4d5 : dims8 (setB (setB (setB B1 r 6 (some p)) r 4 none) r 5
      (getB (setB (setB B1 r 6 (some p)) r 4 none) r 7)) := dims8_setB hB4d _ _ _
  have h47 : getB (setB (setB B1 r 6 (some p)) r 4 none) r 7 = getB board r 7 := by
    rw [getB_setB_ne _ _ _ _ _ _ (by omega), getB_setB_ne _ _ _ _ _ _ (by omega)]
    exact hB1r 7
  rw [hT]
  refine ⟨?_, ?_, ?_, ?_⟩
  · rw [getB_setB_ne _ _ _ _ _ _ (by omega), getB_setB_ne _ _ _ _ _ _ (by omega),
      getB_setB_ne _ _ _ _ _ _ (by omega)]
    exact getB_setB_same _ _ _ _ hB1d hr (by omega)
  · rw [getB_setB_ne _ _ _ _ _ _ (by omega),
      getB_setB_same _ _ _ _ hB4d hr (by omega), h47]
  · exact getB_setB_same _ _ _ _ hB4d5 hr (by omega)
  · rw [getB_setB_ne _ _ _ _ _ _ (by omega), getB_setB_ne _ _ _ _ _ _ (by omega)]
    exact getB_setB_same _ _ _ _ hB2d hr (by omega)

/-- Board effect of a queenside castle execution: the king lands on file
2, the contents of the corner file 0 move to file 3, and the corner and
the origin file 4 are cleared. -/
theorem applyBoard_castle_Q (board : Board) (r : Int) (p : Char) (cand : Cand)
    (pr : Option Char) (hd : dims8 board) (hr : 0 ≤ r ∧ r < 8) (hk : p.toLower = 'k') :
    getB (applyBoard board (4, r) (2, r) p cand pr) r 2 = some p ∧
      getB (applyBoard board (4, r) (2, r) p cand pr) r 3 = getB board r 0 ∧
      getB (applyBoard board (4, r) (2, r) p cand pr) r 0 = none ∧
      getB (applyBoard board (4, r) (2, r) p cand pr) r 4 = none := by
  obtain ⟨B1, hB1d, hB1r, hT⟩ : ∃ B1, dims8 B1 ∧ (∀ F' : Int, getB B1 r F' = getB board r F') ∧
      applyBoard board (4, r) (2, r) p cand pr =
        setB (setB (setB (setB B1 r 2 (some p)) r 4 none) r 3
          (getB (setB (setB B1 r 2 (some p)) r 4 none) r 0)) r 0 none := by
    refine ⟨if cand.ep = true then
        setB board (r - if isWhitePiece p then (1 : Int) else -1) 2 none else board,
      ?_, ?_, ?_⟩
    · split
      · exact dims8_setB hd _ _ _
      · exact hd
    · intro F'
      split
      · apply getB_setB_ne
        left
        split <;> omega
      · rfl
    · have hpn : ¬(p.toLower = 'p' ∧ ((r : Int) = 7 ∨ (r : Int) = 0)) := by
        rw [hk]; rintro ⟨h1, _⟩; exact absurd h1 (by decide)
      have hcc : p.toLower = 'k' ∧ (((2 : Int) - 4).natAbs = 2) := ⟨hk, by decide⟩
      dsimp only [applyBoard]
      rw [if_neg hpn, if_pos hcc, if_neg (by decide : ¬(2 : Int) = 6),
        if_pos (rfl : (2 : Int) = 2)]
  have hB2d : dims8 (setB B1 r 2 (some p)) := dims8_setB hB1d _ _ _
  have hB4d : dims8 (setB (setB B1 r 2 (some p)) r 4 none) := dims8_setB hB2d _ _ _
  have hB4d3 : dims8 (setB (setB (setB B1 r 2 (some p)) r 4 none) r 3
      (getB (setB (setB B1 r 2 (some p)) r 4 none) r 0)) := dims8_setB hB4d _ _ _
  have h40 : getB (setB (setB B1 r 2 (some p)) r 4 none) r 0 = getB board r 0 := by
    rw [getB_setB_ne _ _ _ _ _ _ (by omega), getB_setB_ne _ _ _ _ _ _ (by omega)]
    exact hB1r 0
  rw [hT]
  refine ⟨?_, ?_, ?_, ?_⟩
  · rw [getB_setB_ne _ _ _ _ _ _ (by omega), getB_setB_ne _ _ _ _ _ _ (by omega),
      getB_setB_ne _ _ _ _ _ _ (by omega)]
    exact getB_setB_same _ _ _ _ hB1d hr (by omega)
  · rw [getB_setB_ne _ _ _ _ _ _ (by omega),
      getB_setB_same _ _ _ _ hB4d hr (by omega), h40]
  · exact getB_setB_same _ _ _ _ hB4d3 hr (by omega)
  · rw [getB_setB_ne _ _ _ _ _ _ (by omega), getB_setB_ne _ _ _ _ _ _ (by omega)]
    exact getB_setB_same _ _ _ _ hB2d hr (by omega)

/-- Effect of `applyCastling` on a castle: both of the mover's letters
disappear, every other letter is untouched. -/
theorem applyCastling_props (castling : String) (isW : Bool) (hnd : castling.data.Nodup) :
    (if isW then 'K' else 'k') ∉ (applyCastling castling isW true).data ∧
      (if isW then 'Q' else 'q') ∉ (applyCastling castling isW true).data ∧
      ∀ c : Char, c ≠ (if isW then 'K' else 'k') → c ≠ (if isW then 'Q' else 'q') →
        (c ∈ (applyCastling castling isW true).data ↔ c ∈ castling.data) := by
  cases isW
  all_goals
    simp only [applyCastling, if_true, if_false, Bool.false_eq_true]
    refine ⟨?_, ?_, ?_⟩
  · intro hm
    have := List.mem_of_mem_erase hm
    exact absurd ((List.Nodup.mem_erase_iff hnd).mp this).1 (by simp)
  · intro hm
    exact absurd ((List.Nodup.mem_erase_iff (hnd.erase _)).mp hm).1 (by simp)
  · intro c hc1 hc2
    rw [List.mem_erase_of_ne hc2, List.mem_erase_of_ne hc1]
  · intro hm
    have := List.mem_of_mem_erase hm
    exact absurd ((List.Nodup.mem_erase_iff hnd).mp this).1 (by simp)
  · intro hm
    exact absurd ((List.Nodup.mem_erase_iff (hnd.erase _)).mp hm).1 (by simp)
  · intro c hc1 hc2
    rw [List.mem_erase_of_ne hc2, List.mem_erase_of_ne hc1]

end CastleLemmas

/-- The board field of the applied state is the mutated clone board. -/
theorem applyMoveState_board (st : GameState) (a b : Int × Int) (p : Char) (cand : Cand)
    (pr : Option Char) :
    (applyMoveState st a b p cand pr).board = applyBoard st.board a b p cand pr := rfl

/-- The castling field of the applied state. -/
theorem applyMoveState_castling (st : GameState) (a b : Int × Int) (p : Char) (cand : Cand)
    (pr : Option Char) :
    (applyMoveState st a b p cand pr).castling =
      applyCastling st.castling (isWhitePiece p)
        (decide (p.toLower = 'k' ∧ (b.1 - a.1).natAbs = 2)) := rfl

/-- A successful `applyMoves` run keeps the result reachable. -/
theorem reachable_applyMoves (ms : List (String × String)) (st st' : GameState)
    (h : Reachable st) (heq : applyMoves st ms = some st') : Reachable st' := by
  induction ms generalizing st with
  | nil =>
    simp only [applyMoves, Option.some.injEq] at heq
    exact heq ▸ h
  | cons ab rest ih =>
    obtain ⟨a, b⟩ := ab
    simp only [applyMoves] at heq
    cases hm : move st a b none with
    | fail r => rw [hm] at heq; exact absurd heq (by simp)
    | ok st1 fen mv =>
      rw [hm] at heq
      exact ih st1 (Reachable.step h (by simp [promoOK]) hm) heq

/-- C7 (amended).  When a successful move is a castle (king on e-file
moving two files to file 6 or file 2), the mover's two castling letters
are removed, every other castling letter is exactly as before, the king
lands on the castle file, the origin is cleared, and the contents of the
corresponding corner square — the rook when one is present, but possibly
nothing, since the source never checks the corner — are transferred to
the square the king crossed, clearing the corner.  The claim's concrete
e1/h1 scenario holds as stated. -/
theorem castling_execution_amended :
    (∀ (st : GameState) (f t : String) (pr : Option Char) (st' : GameState)
      (fen : String) (mvr : MoveRec) (p : Char) (r : Int),
      WF st →
      move st f t pr = .ok st' fen mvr →
      getB st.board r 4 = some p →
      (p = 'K' ∨ p = 'k') →
      sqToFR f = (4, r) →
      (sqToFR t = (6, r) ∨ sqToFR t = (2, r)) →
      0 ≤ r → r < 8 →
      ((if isWhitePiece p then 'K' else 'k') ∉ st'.castling.data ∧
        (if isWhitePiece p then 'Q' else 'q') ∉ st'.castling.data ∧
        (∀ c : Char, c ≠ (if isWhitePiece p then 'K' else 'k') →
          c ≠ (if isWhitePiece p then 'Q' else 'q') →
          (c ∈ st'.castling.data ↔ c ∈ st.castling.data)) ∧
        (sqToFR t = (6, r) →
          getB st'.board r 6 = some p ∧ getB st'.board r 5 = getB st.board r 7 ∧
          getB st'.board r 7 = none ∧ getB st'.board r 4 = none) ∧
        (sqToFR t = (2, r) →
          getB st'.board r 2 = some p ∧ getB st'.board r 3 = getB st.board r 0 ∧
          getB st'.board r 0 = none ∧ getB st'.board r 4 = none))) ∧
    c7res.isOk = true ∧
    getB (c7res.stateD startState).board 0 6 = some 'K' ∧
    getB (c7res.stateD startState).board 0 5 = some 'R' ∧
    getB (c7res.stateD startState).board 0 7 = none ∧
    getB (c7res.stateD startState).board 0 4 = none ∧
    (c7res.stateD startState).castling = "" := by
  constructor
  · intro st f t pr st' fen mvr p r hWF hmove hp hpk ha hbt hr0 hr8
    obtain ⟨p', cand, hp', hf, hst', _, _⟩ := move_ok_inversion hmove
    rw [ha] at hp' hst'
    dsimp only at hp'
    rw [hp] at hp'
    cases hp'
    have hk : p.toLower = 'k' := by rcases hpk with rfl | rfl <;> decide
    have hcond : p.toLower = 'k' ∧ ((sqToFR t).1 - ((4 : Int), r).1).natAbs = 2 := by
      rcases hbt with hb | hb
      · rw [hb]; exact ⟨hk, show ((6 : Int) - 4).natAbs = 2 by decide⟩
      · rw [hb]; exact ⟨hk, show ((2 : Int) - 4).natAbs = 2 by decide⟩
    have hcast : st'.castling =
        applyCastling st.castling (isWhitePiece p) true := by
      rw [hst', applyMoveState_castling, decide_eq_true hcond]
    have hrights := applyCastling_props st.castling (isWhitePiece p) hWF.2.2.2.2.1
    rw [← hcast] at hrights
    refine ⟨hrights.1, hrights.2.1, hrights.2.2, ?_, ?_⟩
    · intro hb6
      rw [hb6] at hst'
      have hb : st'.board = applyBoard st.board (4, r) (6, r) p cand pr := by
        rw [hst', applyMoveState_board]
      rw [hb]
      exact applyBoard_castle_K st.board r p cand pr ⟨hWF.1, hWF.2.1⟩ ⟨hr0, hr8⟩ hk
    · intro hb2
      rw [hb2] at hst'
      have hb : st'.board = applyBoard st.board (4, r) (2, r) p cand pr := by
        rw [hst', applyMoveState_board]
      rw [hb]
      exact applyBoard_castle_Q st.board r p cand pr ⟨hWF.1, hWF.2.1⟩ ⟨hr0, hr8⟩ hk
  · decide

/-- Witness for C7: the general clause applied to the concrete e1/h1
scenario — the king reaches g1, the h1 rook reaches f1, and white's
kingside letter is gone from the castling record. -/
theorem castling_execution_amended_witness :
    getB (c7res.stateD startState).board 0 6 = some 'K' ∧
      getB (c7res.stateD startState).board 0 5 = some 'R' ∧
      'K' ∉ (c7res.stateD startState).castling.data := by
  have h : move c7scn "e1" "g1" none =
      .ok (c7res.stateD startState) (c7res.fenD "") (c7res.mvD dummyRec) := by decide
  have h2 := castling_execution_amended.1 c7scn "e1" "g1" none (c7res.stateD startState)
    (c7res.fenD "") (c7res.mvD dummyRec) 'K' 0 (by decide) h (by decide) (Or.inl rfl)
    (by decide) (Or.inl (by decide)) (by decide) (by decide)
  obtain ⟨hK, _, _, h6, _⟩ := h2
  have h6' := h6 (by decide)
  refine ⟨h6'.1, ?_, ?_⟩
  · rw [h6'.2.1]; decide
  · simpa using hK

/-- C7 (counterexample).  A reachable position in which the kingside
castle succeeds with h1 empty: the resulting position has no rook on f1
(nor anywhere on rank 1), so castling execution does not always relocate
a rook as the claim states. -/
theorem castling_missing_rook_counterexample :
    applyMoves startState c7seq = some c7pre ∧
      Reachable c7pre ∧
      c7pre.castling = "KQkq" ∧
      getB c7pre.board 0 4 = some 'K' ∧
      getB c7pre.board 0 5 = none ∧
      getB c7pre.board 0 6 = none ∧
      getB c7pre.board 0 7 = none ∧
      noRookRes.isOk = true ∧
      getB (noRookRes.stateD startState).board 0 6 = some 'K' ∧
      getB (noRookRes.stateD startState).board 0 5 = none ∧
      getB (noRookRes.stateD startState).board 0 7 = none := by
  have happ : applyMoves startState c7seq = some c7pre := by decide
  exact ⟨happ, reachable_applyMoves c7seq startState c7pre Reachable.init happ,
    by decide, by decide, by decide, by decide, by decide, by decide, by decide,
    by decide, by decide⟩

section DiffMatcher

/-- A successful `find?` splits its list at the first hit: everything
before the returned element fails the predicate. -/
theorem find?_eq_some_split {α : Type} (l : List α) (p : α → Bool) (a : α)
    (h : l.find? p = some a) :
    ∃ l1 l2, l = l1 ++ a :: l2 ∧ p a = true ∧ ∀ b ∈ l1, p b = false := by
  induction l with
  | nil => simp at h
  | cons x xs ih =>
    by_cases hx : p x
    · rw [List.find?_cons_of_pos _ hx] at h
      cases h
      exact ⟨[], xs, rfl, hx, by simp⟩
    · rw [List.find?_cons_of_neg _ (by simpa using hx)] at h
      obtain ⟨l1, l2, hsplit, hpa, hl1⟩ := ih h
      refine ⟨x :: l1, l2, by rw [hsplit]; rfl, hpa, ?_⟩
      intro b hb
      rcases List.mem_cons.mp hb with rfl | hb
      · simpa using hx
      · exact hl1 b hb

/-- `allSquares` holds exactly the in-range squares. -/
theorem mem_allSquares (q : Nat × Nat) : q ∈ allSquares ↔ q.1 < 8 ∧ q.2 < 8 := by
  simp only [allSquares, List.mem_flatMap, List.mem_map, List.mem_range]
  constructor
  · rintro ⟨r, hr, f, hf, rfl⟩
    exact ⟨hr, hf⟩
  · rintro ⟨h1, h2⟩
    exact ⟨q.1, h1, q.2, h2, rfl⟩

/-- `allSquares` is strictly increasing in the row-major order. -/
theorem allSquares_pairwise :
    allSquares.Pairwise (fun q1 q2 => q1.1 < q2.1 ∨ (q1.1 = q2.1 ∧ q1.2 < q2.2)) := by
  decide

set_option maxRecDepth 4000 in
/-- Two in-range squares with the same label are the same square. -/
theorem sq_inj : ∀ q1 ∈ allSquares, ∀ q2 ∈ allSquares,
    sq (q1.2 : Int) (q1.1 : Int) = sq (q2.2 : Int) (q2.1 : Int) → q1 = q2 := by decide

/-- C9.  The snapshot diff matcher: for every square whose `before`
occupant is absent or different in `after`, `findPiece` returns exactly
the row-major-first square of `after` holding the same symbol that did
not already hold it in `before` (and the moving map records it as the
destination); when no such square exists the origin stays unmapped. -/
theorem diff_matcher_first_match (startB endB : Board) (r f : Nat) (a : Char)
    (hr : r < 8) (hf : f < 8)
    (hold : getB startB (r : Int) (f : Int) = some a)
    (hnew : ¬getB endB (r : Int) (f : Int) = some a) :
    (∀ R F : Nat, findPiece endB a (r : Int) (f : Int) startB = some (R, F) →
      R < 8 ∧ F < 8 ∧ matchCond endB startB a R F = true ∧
        (∀ R' F' : Nat, R' < 8 → F' < 8 → (R' < R ∨ (R' = R ∧ F' < F)) →
          matchCond endB startB a R' F' = false) ∧
        (sq (f : Int) (r : Int), sq (F : Int) (R : Int)) ∈ movingMap startB endB) ∧
    (findPiece endB a (r : Int) (f : Int) startB = none →
      (∀ R F : Nat, R < 8 → F < 8 → matchCond endB startB a R F = false) ∧
      ∀ pr ∈ movingMap startB endB, pr.1 ≠ sq (f : Int) (r : Int)) := by
  constructor
  · intro R F hfind
    have hfind0 := hfind
    simp only [findPiece] at hfind
    have hmatch := List.find?_some hfind
    have hmemRF : (R, F) ∈ allSquares := List.mem_of_find?_eq_some hfind
    have hbounds := (mem_allSquares _).mp hmemRF
    refine ⟨hbounds.1, hbounds.2, hmatch, ?_, ?_⟩
    · intro R' F' hR' hF' hlex
      obtain ⟨l1, l2, hsplit, _, hl1⟩ := find?_eq_some_split _ _ _ hfind
      have hmem : (R', F') ∈ allSquares := (mem_allSquares _).mpr ⟨hR', hF'⟩
      rw [hsplit] at hmem
      rcases List.mem_append.mp hmem with h1 | h2
      · exact hl1 _ h1
      · rcases List.mem_cons.mp h2 with heq | h2
        · cases heq
          omega
        · have hpair := allSquares_pairwise
          rw [hsplit] at hpair
          have hrel := (List.pairwise_cons.mp (List.pairwise_append.mp hpair).2.1).1
          have := hrel _ h2
          dsimp only at this
          omega
    · apply List.mem_filterMap.mpr
      refine ⟨(r, f), (mem_allSquares _).mpr ⟨hr, hf⟩, ?_⟩
      simp only [hold]
      rw [if_neg (by simpa using hnew), hfind0]
  · intro hfind
    simp only [findPiece] at hfind
    have hall := List.find?_eq_none.mp hfind
    constructor
    · intro R F hR hF
      have := hall (R, F) ((mem_allSquares _).mpr ⟨hR, hF⟩)
      simpa using this
    · intro pr hpr hkey
      obtain ⟨q, hq, hfn⟩ := List.mem_filterMap.mp hpr
      have hqb := (mem_allSquares _).mp hq
      cases hsq : getB startB (q.1 : Int) (q.2 : Int) with
      | none => rw [hsq] at hfn; exact absurd hfn (by simp)
      | some aq =>
        rw [hsq] at hfn
        dsimp only at hfn
        by_cases hbeq : getB endB (q.1 : Int) (q.2 : Int) == some aq
        · rw [if_pos hbeq] at hfn
          exact absurd hfn (by simp)
        · rw [if_neg hbeq] at hfn
          cases hfp : findPiece endB aq (q.1 : Int) (q.2 : Int) startB with
          | none => rw [hfp] at hfn; exact absurd hfn (by simp)
          | some RF =>
            obtain ⟨R2, F2⟩ := RF
            rw [hfp] at hfn
            have hpr1 : pr.1 = sq (q.2 : Int) (q.1 : Int) := by
              cases hfn
              rfl
            rw [hpr1] at hkey
            have hq' : q = (r, f) :=
              sq_inj q hq (r, f) ((mem_allSquares _).mpr ⟨hr, hf⟩) hkey
            rw [hq'] at hsq hfp
            rw [hold] at hsq
            cases hsq
            simp only [findPiece] at hfp
            rw [hfind] at hfp
            exact absurd hfp (by simp)

/-- Witness for C9: diffing the initial position against the position
after 1.e4, the white pawn that left e2 is matched to e4 and recorded in
the moving map. -/
theorem diff_matcher_first_match_witness :
    ("e2", "e4") ∈ movingMap startState.board e4st.board := by
  have h := (diff_matcher_first_match startState.board e4st.board 1 4 'P'
    (by decide) (by decide) (by decide) (by decide)).1 3 4 (by decide)
  have hm := h.2.2.2.2
  have he : ((sq ((4 : Nat) : Int) ((1 : Nat) : Int),
      sq ((4 : Nat) : Int) ((3 : Nat) : Int)) : String × String) = ("e2", "e4") := by decide
  rw [← he]
  exact hm

end DiffMatcher

section CharFacts

/-- A recognized piece letter is not whitespace, not a slash, and not a
placement digit. -/
theorem validPiece_facts (c : Char) (h : validPiece c = true) :
    isWs c = false ∧ c ≠ '/' ∧ isDigit18 c = false := by
  have hm : c ∈ PIECES := by simpa [validPiece] using h
  fin_cases hm <;> decide

/-- A placement digit is not whitespace and not a slash. -/
theorem digit18_facts (c : Char) (h : isDigit18 c = true) :
    isWs c = false ∧ c ≠ '/' := by
  simp only [isDigit18, Bool.decide_and, Bool.and_eq_true, decide_eq_true_eq] at h
  obtain ⟨h1, h2⟩ := h
  have hne : ∀ x : Char, x < '1' → c ≠ x := by
    intro x hx hcx
    rw [hcx] at h1
    exact absurd (lt_of_le_of_lt h1 hx) (lt_irrefl _)
  refine ⟨?_, hne '/' (by decide)⟩
  simp only [isWs, Char.isWhitespace]
  simp [hne ' ' (by decide), hne '\t' (by decide), hne '\r' (by decide), hne '\n' (by decide)]

/-- The digit characters for counts 1–8 parse back to their value. -/
theorem digitChar_18 (e : Nat) (h1 : 1 ≤ e) (h2 : e ≤ 8) :
    isDigit18 (digitChar e) = true ∧ (digitChar e).toNat - '0'.toNat = e := by
  interval_cases e <;> exact ⟨by decide, by decide⟩

/-- The digit characters for 0–9 are decimal digits with their value. -/
theorem digitChar_lt10 (d : Nat) (h : d < 10) :
    (digitChar d).isDigit = true ∧ digitVal (digitChar d) = d ∧
      isWs (digitChar d) = false := by
  interval_cases d <;> exact ⟨by decide, by decide, by decide⟩

/-- A decimal digit character is not whitespace. -/
theorem isDigit_not_ws (c : Char) (h : c.isDigit = true) : isWs c = false := by
  simp only [Char.isDigit, Bool.and_eq_true, decide_eq_true_eq] at h
  obtain ⟨h1, _⟩ := h
  have hne : ∀ x : Char, x < '0' → c ≠ x := by
    intro x hx hcx
    rw [hcx] at h1
    exact absurd (lt_of_le_of_lt h1 hx) (lt_irrefl _)
  simp only [isWs, Char.isWhitespace]
  simp [hne ' ' (by decide), hne '\t' (by decide), hne '\r' (by decide), hne '\n' (by decide)]

/-- `getD` stays inside the list's characters or the default. -/
theorem getD_ws_free (l : List Char) (d : Char) (hl : ∀ c ∈ l, isWs c = false)
    (hd : isWs d = false) (n : Nat) : isWs (l.getD n d) = false := by
  rw [List.getD_eq_getElem?_getD]
  cases hg : l[n]? with
  | none => simpa using hd
  | some c =>
    obtain ⟨hn, rfl⟩ := List.getElem?_eq_some.mp hg
    simpa using hl _ (List.getElem_mem hn)

/-- Square labels contain no whitespace. -/
theorem sq_ws_free (f r : Int) : ∀ c ∈ (sq f r).data, isWs c = false := by
  intro c hc
  have hF : ∀ c' ∈ FILES, isWs c' = false := by decide
  have hR : ∀ c' ∈ RANKS, isWs c' = false := by decide
  simp only [sq, String.mk, List.mem_cons, List.not_mem_nil, or_false] at hc
  rcases hc with rfl | rfl
  · unfold getI
    split
    · exact getD_ws_free FILES '?' hF (by decide) _
    · decide
  · unfold getI
    split
    · exact getD_ws_free RANKS '?' hR (by decide) _
    · decide

/-- A square label is a nonempty string. -/
theorem sq_ne_empty (f r : Int) : sq f r ≠ "" := by
  intro h
  have h2 := congrArg (fun s => s.data.length) h
  simp [sq] at h2

end CharFacts

section TakeSetLemmas

/-- A list that is `none` from position `c` on splits as its prefix plus
a block of `none`s. -/
theorem eq_take_append_replicate (arr : List (Option Char)) (c k : Nat)
    (hlen : arr.length = c + k)
    (hnone : ∀ i : Nat, c ≤ i → arr.getD i none = none) :
    arr = arr.take c ++ List.replicate k none := by
  apply List.ext_getElem
  · simp [hlen]
  · intro i h1 h2
    by_cases hi : i < c
    · rw [List.getElem_append_left (by simp [hlen]; omega)]
      simp [List.getElem_take]
    · rw [List.getElem_append_right (by simp [hlen]; omega)]
      have := hnone i (by omega)
      rw [List.getD_eq_getElem?_getD, List.getElem?_eq_getElem h1] at this
      simp only [Option.getD_some] at this
      rw [this]
      simp

/-- Extending a `take` over a region that is all `none`. -/
theorem take_add_replicate (arr : List (Option Char)) (c k : Nat)
    (hle : c + k ≤ arr.length)
    (hnone : ∀ i : Nat, c ≤ i → arr.getD i none = none) :
    arr.take (c + k) = arr.take c ++ List.replicate k none := by
  apply List.ext_getElem
  · simp; omega
  · intro i h1 h2
    simp only [List.getElem_take]
    by_cases hi : i < c
    · rw [List.getElem_append_left (by simp; omega)]
      simp [List.getElem_take]
    · rw [List.getElem_append_right (by simp; omega)]
      have hlt : i < arr.length := by simp at h1; omega
      have := hnone i (by omega)
      rw [List.getD_eq_getElem?_getD, List.getElem?_eq_getElem hlt] at this
      simp only [Option.getD_some] at this
      rw [this]
      simp

/-- Taking one past a `set` position captures the written value. -/
theorem take_set_succ {α : Type} (l : List α) (i : Nat) (x : α) (h : i < l.length) :
    (l.set i x).take (i + 1) = l.take i ++ [x] := by
  apply List.ext_getElem
  · simp; omega
  · intro k h1 h2
    simp only [List.getElem_take]
    by_cases hk : k < i
    · rw [List.getElem_set_ne (by omega), List.getElem_append_left (by simp; omega)]
      simp [List.getElem_take]
    · have hki : k = i := by simp at h1; omega
      subst hki
      rw [List.getElem_set_self, List.getElem_append_right (by simp)]
      simp

end TakeSetLemmas

section SplitLemmas

/-- The whitespace split consumes one nonempty whitespace-free token up
to a space and emits it. -/
theorem splitWsAux_token (tok : List Char) (hne : tok ≠ [])
    (hws : ∀ c ∈ tok, isWs c = false) :
    ∀ (acc rest : List Char),
      splitWsAux (tok ++ ' ' :: rest) acc = (acc.reverse ++ tok) :: splitWsAux rest [] := by
  induction tok with
  | nil => exact absurd rfl hne
  | cons x xs ih =>
    intro acc rest
    have hx : isWs x = false := hws x (by simp)
    by_cases hxs : xs = []
    · subst hxs
      simp only [List.cons_append, List.nil_append, splitWsAux, hx, Bool.false_eq_true,
        if_false, List.isEmpty_cons]
      have : isWs ' ' = true := by decide
      simp [splitWsAux, this, List.reverse_cons]
    · have := ih hxs (fun c hc => hws c (by simp [hc])) (x :: acc) rest
      simp only [List.cons_append, splitWsAux, hx, Bool.false_eq_true, if_false]
      show splitWsAux (xs ++ ' ' :: rest) (x :: acc) =
        (acc.reverse ++ x :: xs) :: splitWsAux rest []
      rw [this]
      simp

/-- The whitespace split of one final nonempty token. -/
theorem splitWsAux_last (tok : List Char) (hne : tok ≠ [])
    (hws : ∀ c ∈ tok, isWs c = false) :
    ∀ acc : List Char, splitWsAux tok acc = [acc.reverse ++ tok] := by
  induction tok with
  | nil => exact absurd rfl hne
  | cons x xs ih =>
    intro acc
    have hx : isWs x = false := hws x (by simp)
    by_cases hxs : xs = []
    · subst hxs
      simp [splitWsAux, hx]
    · have := ih hxs (fun c hc => hws c (by simp [hc])) (x :: acc)
      simp only [splitWsAux, hx, Bool.false_eq_true, if_false]
      rw [this]
      simp

/-- The separator split consumes one separator-free token. -/
theorem splitSepAux_token (sep : Char) (tok : List Char)
    (hsep : ∀ c ∈ tok, c ≠ sep) :
    ∀ (acc rest : List Char),
      splitSepAux sep (tok ++ sep :: rest) acc =
        (acc.reverse ++ tok) :: splitSepAux sep rest [] := by
  induction tok with
  | nil =>
    intro acc rest
    simp [splitSepAux]
  | cons x xs ih =>
    intro acc rest
    have hx : x ≠ sep := hsep x (by simp)
    have := ih (fun c hc => hsep c (by simp [hc])) (x :: acc) rest
    simp only [List.cons_append, splitSepAux, if_neg hx]
    show splitSepAux sep (xs ++ sep :: rest) (x :: acc) =
      (acc.reverse ++ x :: xs) :: splitSepAux sep rest []
    rw [this]
    simp

/-- The separator split of one final separator-free token. -/
theorem splitSepAux_last (sep : Char) (tok : List Char)
    (hsep : ∀ c ∈ tok, c ≠ sep) :
    ∀ acc : List Char, splitSepAux sep tok acc = [acc.reverse ++ tok] := by
  induction tok with
  | nil =>
    intro acc
    simp [splitSepAux]
  | cons x xs ih =>
    intro acc
    have hx : x ≠ sep := hsep x (by simp)
    have := ih (fun c hc => hsep c (by simp [hc])) (x :: acc)
    simp only [splitSepAux, if_neg hx]
    rw [this]
    simp

/-- Splitting on `/` inverts `joinSlash` for slash-free chunks. -/
theorem splitSep_joinSlash (ls : List (List Char))
    (h : ∀ l ∈ ls, ∀ c ∈ l, c ≠ '/') (hne : ls ≠ []) :
    splitSep '/' (joinSlash ls) = ls := by
  induction ls with
  | nil => exact absurd rfl hne
  | cons x xs ih =>
    cases xs with
    | nil =>
      show splitSepAux '/' (joinSlash [x]) [] = [x]
      rw [joinSlash]
      rw [splitSepAux_last '/' x (h x (by simp))]
      simp
    | cons y ys =>
      show splitSepAux '/' (joinSlash (x :: y :: ys)) [] = x :: y :: ys
      rw [joinSlash]
      rw [splitSepAux_token '/' x (h x (by simp))]
      rw [List.reverse_nil, List.nil_append]
      rw [show splitSepAux '/' (joinSlash (y :: ys)) ([] : List Char) =
        splitSep '/' (joinSlash (y :: ys)) from rfl]
      have hne2 : y :: ys ≠ [] := by intro hh; exact List.noConfusion hh
      have hih := ih (fun l hl => h l (List.mem_cons_of_mem x hl)) hne2
      rw [hih]
      exact fun hh => List.noConfusion hh

/-- Every character a rank encoder emits is a piece letter or a
placement digit (given a valid rank of at most eight files). -/
theorem encRowAux_chars (row : List (Option Char)) :
    ∀ e : Nat, e + row.length ≤ 8 →
      (∀ ch : Char, some ch ∈ row → validPiece ch = true) →
      ∀ c ∈ encRowAux row e, validPiece c = true ∨ isDigit18 c = true := by
  induction row with
  | nil =>
    intro e he _ c hc
    simp only [encRowAux] at hc
    split at hc
    · simp at hc
    · simp only [List.mem_singleton] at hc
      subst hc
      right
      exact (digitChar_18 e (by omega) (by omega)).1
  | cons o rest ih =>
    intro e he hval c hc
    cases o with
    | none =>
      rw [encRowAux] at hc
      exact ih (e + 1) (by simp at he ⊢; omega)
        (fun ch hch => hval ch (by simp [hch])) c hc
    | some p =>
      rw [encRowAux] at hc
      rcases List.mem_append.mp hc with h1 | h2
      · split at h1
        · simp at h1
        · simp only [List.mem_singleton] at h1
          subst h1
          right
          exact (digitChar_18 e (by omega) (by simp at he; omega)).1
      · rcases List.mem_cons.mp h2 with rfl | h3
        · left
          exact hval c (by simp)
        · exact ih 0 (by simp at he ⊢; omega)
            (fun ch hch => hval ch (by simp [hch])) c h3

/-- A rank encoding of a nonempty rank is nonempty. -/
theorem encRowAux_ne_nil (row : List (Option Char)) :
    ∀ e : Nat, row ≠ [] ∨ e ≠ 0 → encRowAux row e ≠ [] := by
  induction row with
  | nil =>
    intro e h
    rcases h with h | h
    · exact absurd rfl h
    · simp [encRowAux, h]
  | cons o rest ih =>
    intro e _
    cases o with
    | none => exact ih (e + 1) (Or.inr (by omega))
    | some p =>
      rw [encRowAux]
      intro hcontra
      rcases List.append_eq_nil.mp hcontra with ⟨_, h2⟩
      simp at h2

end SplitLemmas

section RowRoundTrip

/-- The rank parser inverts the rank encoder: starting at file `c` on a
buffer that is empty from `c` on, parsing the encoding of `row` with `k`
pending empties reproduces the prefix, the empties, and the row. -/
theorem parseRowAux_encRowAux (row : List (Option Char)) :
    ∀ (k c : Nat) (arr : List (Option Char)),
      arr.length = 8 → c + k + row.length = 8 →
      (∀ i : Nat, c ≤ i → arr.getD i none = none) →
      (∀ ch : Char, some ch ∈ row → validPiece ch = true) →
      parseRowAux (encRowAux row k) c arr =
        arr.take c ++ List.replicate k none ++ row := by
  induction row with
  | nil =>
    intro k c arr hlen hsum hnone _
    rw [encRowAux]
    by_cases hk : k = 0
    · subst hk
      have hc8 : c = 8 := by simpa using hsum
      rw [if_pos rfl, parseRowAux]
      simp only [List.replicate_zero, List.append_nil]
      rw [List.take_of_length_le (by omega)]
    · have hck : c + k = 8 := by simpa using hsum
      rw [if_neg hk, parseRowAux]
      have hd := digitChar_18 k (by omega) (by omega)
      rw [if_pos hd.1, parseRowAux]
      simp only [List.append_nil]
      exact eq_take_append_replicate arr c k (by omega) hnone
  | cons o rest ih =>
    intro k c arr hlen hsum hnone hval
    cases o with
    | none =>
      rw [encRowAux]
      rw [ih (k + 1) c arr hlen (by simp at hsum ⊢; omega) hnone
        (fun ch hch => hval ch (by simp [hch]))]
      rw [List.replicate_succ']
      simp [List.append_assoc]
    | some ch =>
      rw [encRowAux]
      have hchv : validPiece ch = true := hval ch (by simp)
      have hchd : isDigit18 ch = false := (validPiece_facts ch hchv).2.2
      by_cases hk : k = 0
      · subst hk
        rw [if_pos rfl]
        simp only [List.nil_append]
        rw [parseRowAux, if_neg (by simp [hchd])]
        have harr' : ∀ i : Nat, c + 1 ≤ i → (arr.set c (some ch)).getD i none = none := by
          intro i hi
          rw [getD_set_ne _ _ _ _ _ (by omega)]
          exact hnone i (by omega)
        rw [ih 0 (c + 1) (arr.set c (some ch)) (by simp [hlen])
          (by simp at hsum ⊢; omega) harr' (fun ch' hch' => hval ch' (by simp [hch']))]
        simp only [List.replicate_zero, List.append_nil]
        rw [take_set_succ arr c (some ch) (by simp at hsum; omega)]
        simp [List.append_assoc]
      · rw [if_neg hk]
        have hd := digitChar_18 k (by omega) (by simp at hsum; omega)
        rw [List.singleton_append]
        rw [parseRowAux, if_pos hd.1, hd.2]
        rw [parseRowAux, if_neg (by simp [hchd])]
        have harr' : ∀ i : Nat, c + k + 1 ≤ i →
            (arr.set (c + k) (some ch)).getD i none = none := by
          intro i hi
          rw [getD_set_ne _ _ _ _ _ (by omega)]
          exact hnone i (by omega)
        rw [ih 0 (c + k + 1) (arr.set (c + k) (some ch)) (by simp [hlen])
          (by simp at hsum ⊢; omega) harr' (fun ch' hch' => hval ch' (by simp [hch']))]
        simp only [List.replicate_zero, List.append_nil]
        rw [take_set_succ arr (c + k) (some ch) (by simp at hsum; omega)]
        rw [take_add_replicate arr c k (by simp at hsum; omega) hnone]
        simp [List.append_assoc]

/-- Decoding the encoding of a valid 8-cell rank gives it back. -/
theorem getD_replicate_none (k i : Nat) :
    (List.replicate k (none : Option Char)).getD i none = none := by
  rw [List.getD_eq_getElem?_getD, List.getElem?_replicate]
  split <;> rfl

/-- Decoding the encoding of a valid 8-cell rank gives it back. -/
theorem parseRow_encRow (row : List (Option Char)) (hlen : row.length = 8)
    (hval : ∀ ch : Char, some ch ∈ row → validPiece ch = true) :
    parseRow (encRowAux row 0) = row := by
  unfold parseRow
  rw [parseRowAux_encRowAux row 0 0 (List.replicate 8 none) (by simp) (by omega)
    (fun i _ => getD_replicate_none 8 i) hval]
  simp

end RowRoundTrip

section NumeralRoundTrip

/-- Every character the decimal renderer emits is a digit. -/
theorem natCharsAux_digits (fuel : Nat) :
    ∀ n : Nat, ∀ c ∈ natCharsAux fuel n, c.isDigit = true := by
  induction fuel with
  | zero => intro n c hc; simp [natCharsAux] at hc
  | succ fuel ih =>
    intro n c hc
    rw [natCharsAux] at hc
    split at hc
    · simp at hc
    · rcases List.mem_append.mp hc with h1 | h2
      · exact ih (n / 10) c h1
      · simp only [List.mem_singleton] at h2
        subst h2
        exact (digitChar_lt10 (n % 10) (show n % 10 < 10 from Nat.mod_lt n (by norm_num))).1

/-- Digit-prefix parsing across an all-digit prefix then one digit. -/
theorem jsParseIntAux_append_digit (l : List Char) (c : Char) (hc : c.isDigit = true)
    (hl : ∀ x ∈ l, x.isDigit = true) :
    ∀ acc : Nat, jsParseIntAux (l ++ [c]) acc = (jsParseIntAux l acc) * 10 + digitVal c := by
  induction l with
  | nil =>
    intro acc
    simp [jsParseIntAux, hc]
  | cons x xs ih =>
    intro acc
    have hx : x.isDigit = true := hl x (by simp)
    simp only [List.cons_append, jsParseIntAux, hx, if_true]
    exact ih (fun y hy => hl y (by simp [hy])) _

/-- Value of the rendered digits under the digit-prefix parser. -/
theorem jsParseIntAux_natCharsAux (fuel : Nat) :
    ∀ n acc : Nat, n ≤ fuel →
      jsParseIntAux (natCharsAux fuel n) acc =
        acc * 10 ^ (natCharsAux fuel n).length + n := by
  induction fuel with
  | zero =>
    intro n acc hn
    interval_cases n
    simp [natCharsAux, jsParseIntAux]
  | succ fuel ih =>
    intro n acc hn
    by_cases h0 : n = 0
    · subst h0
      simp [natCharsAux, jsParseIntAux]
    · have hstep : natCharsAux (fuel + 1) n =
          natCharsAux fuel (n / 10) ++ [digitChar (n % 10)] := by
        rw [natCharsAux, if_neg h0]
      have hdiv : n / 10 ≤ fuel := by
        have h2 : n / 10 < n := Nat.div_lt_self (Nat.pos_of_ne_zero h0) (by norm_num)
        omega
      have hmod := digitChar_lt10 (n % 10) (show n % 10 < 10 from Nat.mod_lt n (by norm_num))
      rw [hstep]
      rw [jsParseIntAux_append_digit _ _ hmod.1 (natCharsAux_digits fuel (n / 10))]
      rw [ih (n / 10) acc hdiv]
      rw [hmod.2.1]
      simp only [List.length_append, List.length_singleton]
      rw [pow_succ]
      have := Nat.div_add_mod n 10
      ring_nf
      omega

/-- The decimal rendering of any natural parses back to it. -/
theorem jsParseInt_natChars (n : Nat) : jsParseInt (natChars n) = n := by
  by_cases h0 : n = 0
  · subst h0; decide
  · unfold jsParseInt natChars
    rw [if_neg h0]
    rw [jsParseIntAux_natCharsAux n n 0 (le_refl n)]
    simp

/-- The decimal rendering is never empty. -/
theorem natChars_ne_nil (n : Nat) : natChars n ≠ [] := by
  unfold natChars
  by_cases h0 : n = 0
  · simp [h0]
  · rw [if_neg h0]
    obtain ⟨m, rfl⟩ := Nat.exists_eq_succ_of_ne_zero h0
    rw [natCharsAux, if_neg (by omega)]
    simp

/-- The decimal rendering contains no whitespace. -/
theorem natChars_ws_free (n : Nat) : ∀ c ∈ natChars n, isWs c = false := by
  intro c hc
  unfold natChars at hc
  split at hc
  · simp only [List.mem_singleton] at hc
    subst hc
    decide
  · exact isDigit_not_ws c (natCharsAux_digits n n c hc)

end NumeralRoundTrip

section RoundTrip

/-- Rebuilding a string from its characters is the identity. -/
theorem string_mk_data (s : String) : String.mk s.data = s := by
  cases s
  rfl

/-- A string with no characters is the empty string. -/
theorem string_eq_empty_of_data (s : String) (h : s.data = []) : s = "" := by
  cases s with
  | mk d =>
    have hd : d = [] := h
    rw [hd]

/-- The rows of a well-formed board have eight valid cells. -/
theorem WF_row_facts (st : GameState) (hrow8 : ∀ i : Nat, i < 8 → (st.board.getD i []).length = 8)
    (hsq : ∀ r : Nat, r < 8 → ∀ f : Nat, f < 8 → sqOK st.board r f = true)
    (r : Nat) (hr : r < 8) :
    (st.board.getD r []).length = 8 ∧
      ∀ ch : Char, some ch ∈ st.board.getD r [] → validPiece ch = true := by
  refine ⟨hrow8 r hr, ?_⟩
  intro ch hch
  obtain ⟨j, hj, hgj⟩ := List.getElem_of_mem hch
  have hj8 : j < 8 := by rw [hrow8 r hr] at hj; exact hj
  have hget : getB st.board (r : Int) (j : Int) = some ch := by
    unfold getB
    rw [if_pos (by omega)]
    have hrn : ((r : Int)).toNat = r := by omega
    have hjn : ((j : Int)).toNat = j := by omega
    rw [hrn, hjn, List.getD_eq_getElem?_getD, List.getElem?_eq_getElem hj]
    simpa using hgj
  have hOK := hsq r hr j hj8
  unfold sqOK at hOK
  rw [hget] at hOK
  exact hOK

/-- Characters of the joined placement field come from a row or are the
separator. -/
theorem mem_joinSlash (ls : List (List Char)) (c : Char) (hc : c ∈ joinSlash ls) :
    c = '/' ∨ ∃ l ∈ ls, c ∈ l := by
  induction ls with
  | nil => simp [joinSlash] at hc
  | cons x xs ih =>
    cases xs with
    | nil =>
      rw [joinSlash] at hc
      exact Or.inr ⟨x, by simp, hc⟩
    | cons y ys =>
      rw [joinSlash] at hc
      · rcases List.mem_append.mp hc with h1 | h2
        · exact Or.inr ⟨x, by simp, h1⟩
        · rcases List.mem_cons.mp h2 with rfl | h3
          · exact Or.inl rfl
          · rcases ih h3 with h4 | ⟨l, hl, hcl⟩
            · exact Or.inl h4
            · exact Or.inr ⟨l, by simp [hl], hcl⟩
      · exact fun hh => List.noConfusion hh

/-- `getD` through a mapped range picks the function value. -/
theorem getD_map_range {α : Type} (n : Nat) (g : Nat → α) (i : Nat) (d : α) (hi : i < n) :
    ((List.range n).map g).getD i d = g i := by
  rw [List.getD_eq_getElem?_getD, List.getElem?_map, List.getElem?_range hi]
  rfl

/-- A length-8 list is the range-map of its own rows. -/
theorem map_range_getD (b : Board) (h : b.length = 8) :
    (List.range 8).map (fun r => b.getD r []) = b := by
  apply List.ext_getElem
  · simp [h]
  · intro i h1 h2
    simp only [List.getElem_map, List.getElem_range]
    rw [List.getD_eq_getElem?_getD, List.getElem?_eq_getElem h2]
    rfl

/-- The whitespace split of the six space-joined FEN fields. -/
theorem splitWs_fields (B T C E H F : List Char)
    (hB : B ≠ [] ∧ ∀ c ∈ B, isWs c = false)
    (hT : T ≠ [] ∧ ∀ c ∈ T, isWs c = false)
    (hC : C ≠ [] ∧ ∀ c ∈ C, isWs c = false)
    (hE : E ≠ [] ∧ ∀ c ∈ E, isWs c = false)
    (hH : H ≠ [] ∧ ∀ c ∈ H, isWs c = false)
    (hF : F ≠ [] ∧ ∀ c ∈ F, isWs c = false) :
    splitWs (B ++ ' ' :: T ++ ' ' :: C ++ ' ' :: E ++ ' ' :: H ++ ' ' :: F) =
      [B, T, C, E, H, F] := by
  unfold splitWs
  have hassoc : B ++ ' ' :: T ++ ' ' :: C ++ ' ' :: E ++ ' ' :: H ++ ' ' :: F =
      B ++ ' ' :: (T ++ ' ' :: (C ++ ' ' :: (E ++ ' ' :: (H ++ ' ' :: F)))) := by
    simp only [List.cons_append, List.append_assoc]
  rw [hassoc]
  rw [splitWsAux_token B hB.1 hB.2]
  rw [splitWsAux_token T hT.1 hT.2]
  rw [splitWsAux_token C hC.1 hC.2]
  rw [splitWsAux_token E hE.1 hE.2]
  rw [splitWsAux_token H hH.1 hH.2]
  rw [splitWsAux_last F hF.1 hF.2]
  simp

/-- C1 engine: decoding the encoding of a well-formed state yields the
state back, with an empty castling field normalized to `-`. -/
theorem fen_roundtrip_WF (st : GameState) (hWF : WF st) :
    parseFEN (boardToFEN st) = normCast st := by
  obtain ⟨hb8, hrow8, hsq, hturn, hnd, hcm, hep1, hep2, hfm⟩ := hWF
  have hrowf := WF_row_facts st hrow8 hsq
  -- facts about the placement token
  have hrowchars : ∀ i : Nat, i < 8 →
      ∀ c ∈ encRowAux (st.board.getD (7 - i) []) 0, validPiece c = true ∨ isDigit18 c = true := by
    intro i hi
    have := hrowf (7 - i) (by omega)
    exact encRowAux_chars _ 0 (by rw [this.1]) this.2
  have hBtok : encBoard st.board ≠ [] ∧ ∀ c ∈ encBoard st.board, isWs c = false := by
    constructor
    · unfold encBoard
      have h0 : (List.range 8).map
          (fun i => encRowAux (st.board.getD (7 - i) []) 0) =
          encRowAux (st.board.getD 7 []) 0 ::
            (List.range' 1 7).map (fun i => encRowAux (st.board.getD (7 - i) []) 0) := by
        rw [List.range_eq_range']
        rw [show List.range' 0 8 = 0 :: List.range' 1 7 from rfl]
        simp
      rw [h0]
      cases h7 : (List.range' 1 7).map (fun i => encRowAux (st.board.getD (7 - i) []) 0) with
      | nil =>
        rw [joinSlash]
        exact encRowAux_ne_nil _ 0 (Or.inl (by
          intro hh
          have := (hrowf 7 (by omega)).1
          rw [hh] at this
          simp at this))
      | cons z zs =>
        rw [joinSlash]
        · intro hh
          rcases List.append_eq_nil.mp hh with ⟨_, h2⟩
          exact List.noConfusion h2
        · exact fun hh => List.noConfusion hh
    · intro c hc
      unfold encBoard at hc
      rcases mem_joinSlash _ c hc with rfl | ⟨l, hl, hcl⟩
      · decide
      · obtain ⟨i, hi, rfl⟩ := List.mem_map.mp hl
        rcases hrowchars i (List.mem_range.mp hi) c hcl with h | h
        · exact (validPiece_facts c h).1
        · exact (digit18_facts c h).1
  have hT : st.turn.data ≠ [] ∧ ∀ c ∈ st.turn.data, isWs c = false := by
    rcases hturn with h | h <;> rw [h] <;> exact ⟨by decide, by decide⟩
  have hCne : st.castling.data.isEmpty = false → st.castling.data ≠ [] := by
    intro h hh
    rw [hh] at h
    simp at h
  have hC : (if st.castling.data.isEmpty then ['-'] else st.castling.data) ≠ [] ∧
      ∀ c ∈ (if st.castling.data.isEmpty then ['-'] else st.castling.data),
        isWs c = false := by
    split
    · exact ⟨by decide, by decide⟩
    · rename_i hne
      refine ⟨hCne (by simpa using hne), ?_⟩
      intro c hc
      have := hcm c hc
      fin_cases this <;> decide
  have hEne : st.ep.data ≠ [] := fun hh => hep1 (string_eq_empty_of_data _ hh)
  have hE : (if st.ep.data.isEmpty then ['-'] else st.ep.data) ≠ [] ∧
      ∀ c ∈ (if st.ep.data.isEmpty then ['-'] else st.ep.data), isWs c = false := by
    split
    · exact ⟨by decide, by decide⟩
    · exact ⟨hEne, hep2⟩
  have hH : natChars st.halfmove ≠ [] ∧ ∀ c ∈ natChars st.halfmove, isWs c = false :=
    ⟨natChars_ne_nil _, natChars_ws_free _⟩
  have hF : natChars (if st.fullmove = 0 then 1 else st.fullmove) ≠ [] ∧
      ∀ c ∈ natChars (if st.fullmove = 0 then 1 else st.fullmove), isWs c = false :=
    ⟨natChars_ne_nil _, natChars_ws_free _⟩
  -- unfold the encoder and the parser
  unfold boardToFEN parseFEN
  dsimp only
  rw [splitWs_fields _ _ _ _ _ _ hBtok hT hC hE hH hF]
  simp only [List.getD_cons_zero, List.getD_cons_succ]
  -- the placement field splits back into the eight rank encodings
  have hsplitB : splitSep '/' (encBoard st.board) =
      (List.range 8).map (fun i => encRowAux (st.board.getD (7 - i) []) 0) := by
    unfold encBoard
    apply splitSep_joinSlash
    · intro l hl c hcl
      obtain ⟨i, hi, rfl⟩ := List.mem_map.mp hl
      rcases hrowchars i (List.mem_range.mp hi) c hcl with h | h
      · exact (validPiece_facts c h).2.1
      · exact (digit18_facts c h).2
    · simp
  rw [hsplitB]
  -- reassemble the board
  have hboard : (List.range 8).map (fun r => parseRow
      (((List.range 8).map (fun i => encRowAux (st.board.getD (7 - i) []) 0)).getD
        (7 - r) [])) = st.board := by
    rw [show (fun r => parseRow
        (((List.range 8).map (fun i => encRowAux (st.board.getD (7 - i) []) 0)).getD
          (7 - r) [])) = fun r : Nat =>
        if r < 8 then parseRow (encRowAux (st.board.getD (7 - (7 - r)) []) 0)
        else parseRow (((List.range 8).map
          (fun i => encRowAux (st.board.getD (7 - i) []) 0)).getD (7 - r) [])
      from funext fun r => by
        split
        · rw [getD_map_range 8 _ (7 - r) [] (by omega)]
        · rfl]
    apply List.ext_getElem
    · simp [hb8]
    · intro i h1 h2
      simp only [List.getElem_map, List.getElem_range]
      have hi8 : i < 8 := by simpa using h1
      rw [if_pos hi8]
      have h77 : 7 - (7 - i) = i := by omega
      rw [h77]
      rw [parseRow_encRow _ (hrowf i hi8).1 (hrowf i hi8).2]
      rw [List.getD_eq_getElem?_getD, List.getElem?_eq_getElem h2]
      rfl
  rw [hboard]
  -- remaining fields
  unfold normCast
  have hcastfield : String.mk (if st.castling.data.isEmpty then ['-'] else st.castling.data) =
      if st.castling = "" then "-" else st.castling := by
    by_cases hcase : st.castling = ""
    · rw [if_pos hcase, hcase]
      rfl
    · rw [if_neg hcase]
      have : st.castling.data.isEmpty = false := by
        cases hemp : st.castling.data.isEmpty
        · rfl
        · exact absurd (string_eq_empty_of_data _ (by simpa using hemp)) hcase
      rw [this]
      show String.mk st.castling.data = st.castling
      exact string_mk_data _
  have hepfield : String.mk (if st.ep.data.isEmpty then ['-'] else st.ep.data) = st.ep := by
    have : st.ep.data.isEmpty = false := by
      cases hemp : st.ep.data.isEmpty
      · rfl
      · exact absurd (by simpa using hemp) hEne
    rw [this]
    show String.mk st.ep.data = st.ep
    exact string_mk_data _
  rw [hcastfield, hepfield, string_mk_data, jsParseInt_natChars, jsParseInt_natChars,
    if_neg hfm]

end RoundTrip

section Preservation

/-- A pointwise-valid board from the bounded per-square check. -/
theorem boardOK_of_sqOK (b : Board)
    (hsq : ∀ r : Nat, r < 8 → ∀ f : Nat, f < 8 → sqOK b r f = true) : boardOK b := by
  intro R F c hc
  unfold getB at hc
  by_cases hin : 0 ≤ R ∧ R < 8 ∧ 0 ≤ F ∧ F < 8
  · rw [if_pos hin] at hc
    have h1 := hsq R.toNat (by omega) F.toNat (by omega)
    unfold sqOK at h1
    have hgb : getB b (R.toNat : Int) (F.toNat : Int) = some c := by
      unfold getB
      rw [if_pos (by omega)]
      have e1 : ((R.toNat : Int)).toNat = R.toNat := by omega
      have e2 : ((F.toNat : Int)).toNat = F.toNat := by omega
      rw [e1, e2]
      exact hc
    rw [hgb] at h1
    exact h1
  · rw [if_neg hin] at hc
    exact absurd hc (by simp)

/-- The bounded per-square check from a pointwise-valid board. -/
theorem sqOK_of_boardOK (b : Board) (h : boardOK b) :
    ∀ r : Nat, r < 8 → ∀ f : Nat, f < 8 → sqOK b r f = true := by
  intro r _ f _
  unfold sqOK
  cases hg : getB b (r : Int) (f : Int) with
  | none => rfl
  | some c => exact h _ _ c hg

/-- All board mutations of a move keep the 8×8 shape. -/
theorem dims8_applyBoard (board : Board) (a b : Int × Int) (p : Char) (cand : Cand)
    (pr : Option Char) (hd : dims8 board) :
    dims8 (applyBoard board a b p cand pr) := by
  obtain ⟨B4, hB4, hT⟩ : ∃ B4, dims8 B4 ∧ applyBoard board a b p cand pr =
      (if p.toLower = 'k' ∧ (b.1 - a.1).natAbs = 2 then
        if b.1 = 6 then setB (setB B4 a.2 5 (getB B4 a.2 7)) a.2 7 none
        else if b.1 = 2 then setB (setB B4 a.2 3 (getB B4 a.2 0)) a.2 0 none
        else B4
      else B4) := by
    refine ⟨_, ?_, rfl⟩
    have hbase : dims8 (if cand.ep = true then
        setB board (b.2 - if isWhitePiece p then (1 : Int) else -1) b.1 none
      else board) := by
      split
      · exact dims8_setB hd _ _ _
      · exact hd
    split
    · exact dims8_setB (dims8_setB (dims8_setB hbase _ _ _) _ _ _) _ _ _
    · exact dims8_setB (dims8_setB hbase _ _ _) _ _ _
  rw [hT]
  split
  · split
    · exact dims8_setB (dims8_setB hB4 _ _ _) _ _ _
    · split
      · exact dims8_setB (dims8_setB hB4 _ _ _) _ _ _
      · exact hB4
  · exact hB4

/-- All board mutations of a move write empty cells, the moved piece, a
promotion letter from the interface alphabet, or a copied cell — so a
valid board stays valid. -/
theorem boardOK_applyBoard (board : Board) (a b : Int × Int) (p : Char) (cand : Cand)
    (pr : Option Char) (hOK : boardOK board) (hp : validPiece p = true)
    (hpr : pr ∈ promoOK) : boardOK (applyBoard board a b p cand pr) := by
  have hpromoval : validPiece
      (if isWhitePiece p then (pr.getD 'q').toUpper else (pr.getD 'q').toLower) = true := by
    fin_cases hpr <;> cases hW : isWhitePiece p <;> simp [hW] <;> decide
  obtain ⟨B4, hB4, hT⟩ : ∃ B4, boardOK B4 ∧ applyBoard board a b p cand pr =
      (if p.toLower = 'k' ∧ (b.1 - a.1).natAbs = 2 then
        if b.1 = 6 then setB (setB B4 a.2 5 (getB B4 a.2 7)) a.2 7 none
        else if b.1 = 2 then setB (setB B4 a.2 3 (getB B4 a.2 0)) a.2 0 none
        else B4
      else B4) := by
    refine ⟨_, ?_, rfl⟩
    have hbase : boardOK (if cand.ep = true then
        setB board (b.2 - if isWhitePiece p then (1 : Int) else -1) b.1 none
      else board) := by
      split
      · exact boardOK_setB hOK (fun c hc => Option.noConfusion hc) _ _
      · exact hOK
    have h3 : boardOK (setB (setB (if cand.ep = true then
        setB board (b.2 - if isWhitePiece p then (1 : Int) else -1) b.1 none
      else board) b.2 b.1 (some p)) a.2 a.1 none) :=
      boardOK_setB (boardOK_setB hbase (fun c hc => by cases hc; exact hp) _ _)
        (fun c hc => Option.noConfusion hc) _ _
    split
    · exact boardOK_setB h3 (fun c hc => by cases hc; exact hpromoval) _ _
    · exact h3
  rw [hT]
  split
  · split
    · exact boardOK_setB (boardOK_setB hB4 (fun c hc => hB4 _ _ c hc) _ _)
        (fun c hc => Option.noConfusion hc) _ _
    · split
      · exact boardOK_setB (boardOK_setB hB4 (fun c hc => hB4 _ _ c hc) _ _)
          (fun c hc => Option.noConfusion hc) _ _
      · exact hB4
  · exact hB4

/-- The turn field of the applied state. -/
theorem applyMoveState_turn (st : GameState) (a b : Int × Int) (p : Char) (cand : Cand)
    (pr : Option Char) :
    (applyMoveState st a b p cand pr).turn = (if st.turn = "w" then "b" else "w") := rfl

/-- The en-passant field of the applied state. -/
theorem applyMoveState_ep (st : GameState) (a b : Int × Int) (p : Char) (cand : Cand)
    (pr : Option Char) :
    (applyMoveState st a b p cand pr).ep =
      (if p.toLower = 'p' ∧ (b.2 - a.2).natAbs = 2 then
        sq a.1 (a.2 + if isWhitePiece p then (1 : Int) else -1)
      else "-") := rfl

/-- The fullmove field of the applied state. -/
theorem applyMoveState_fullmove (st : GameState) (a b : Int × Int) (p : Char) (cand : Cand)
    (pr : Option Char) :
    (applyMoveState st a b p cand pr).fullmove =
      (if (if st.turn = "w" then "b" else "w") = "w" then
        (if st.fullmove = 0 then 1 else st.fullmove) + 1
      else st.fullmove) := rfl

/-- One successful executor step with an interface-conforming promotion
argument preserves well-formedness. -/
theorem WF_step {st : GameState} (hWF : WF st) {f t : String} {pr : Option Char}
    {st' : GameState} {fen : String} {mvr : MoveRec} (hpr : pr ∈ promoOK)
    (hmv : move st f t pr = .ok st' fen mvr) : WF st' := by
  obtain ⟨p, cand, hp, _, hst', _, _⟩ := move_ok_inversion hmv
  obtain ⟨hb8, hrow8, hsq, hturn, hnd, hcm, hep1, hep2, hfm⟩ := hWF
  have hpv : validPiece p = true := boardOK_of_sqOK st.board hsq _ _ p hp
  subst hst'
  have hd' : dims8 (applyBoard st.board (sqToFR f) (sqToFR t) p cand pr) :=
    dims8_applyBoard _ _ _ _ _ _ ⟨hb8, hrow8⟩
  have hOK' : boardOK (applyBoard st.board (sqToFR f) (sqToFR t) p cand pr) :=
    boardOK_applyBoard _ _ _ _ _ _ (boardOK_of_sqOK st.board hsq) hpv hpr
  refine ⟨?_, ?_, ?_, ?_, ?_, ?_, ?_, ?_, ?_⟩
  · rw [applyMoveState_board]
    exact hd'.1
  · rw [applyMoveState_board]
    exact hd'.2
  · intro r hr fi hfi
    rw [applyMoveState_board]
    exact sqOK_of_boardOK _ hOK' r hr fi hfi
  · rw [applyMoveState_turn]
    split
    · exact Or.inr rfl
    · rcases hturn with h | h
      · exact absurd h (by assumption)
      · exact Or.inl rfl
  · rw [applyMoveState_castling]
    unfold applyCastling
    split
    · split
      · exact (hnd.erase 'K').erase 'Q'
      · exact (hnd.erase 'k').erase 'q'
    · exact hnd
  · intro c hc
    rw [applyMoveState_castling] at hc
    unfold applyCastling at hc
    split at hc
    · split at hc
      · exact hcm c (List.mem_of_mem_erase (List.mem_of_mem_erase hc))
      · exact hcm c (List.mem_of_mem_erase (List.mem_of_mem_erase hc))
    · exact hcm c hc
  · rw [applyMoveState_ep]
    split
    · exact sq_ne_empty _ _
    · decide
  · intro c hc
    rw [applyMoveState_ep] at hc
    revert hc
    split
    · exact fun hc => sq_ws_free _ _ c hc
    · intro hc
      have : c = '-' := by simpa using hc
      rw [this]
      decide
  · rw [applyMoveState_fullmove]
    repeat' split
    all_goals omega

/-- Every position reachable through the executor is well-formed. -/
theorem WF_reachable {st : GameState} (h : Reachable st) : WF st := by
  induction h with
  | init => decide
  | step _ hpr hmv ih => exact WF_step ih hpr hmv

end Preservation

/-- C1 (amended).  For every Position reachable through the Move
Executor, decoding the encoded record yields the Position back in every
field, except that an empty castling-rights string re-decodes as the
normalized `-` (semantically the same absence of rights). -/
theorem fen_roundtrip_reachable (p : GameState) (h : Reachable p) :
    parseFEN (boardToFEN p) = normCast p :=
  fen_roundtrip_WF p (WF_reachable h)

/-- Witness for C1: the amended round-trip applied to the initial
position, which is reachable. -/
theorem fen_roundtrip_reachable_witness :
    parseFEN (boardToFEN startState) = normCast startState :=
  fen_roundtrip_reachable startState Reachable.init

set_option maxHeartbeats 2000000 in
/-- C1 (counterexample).  After both sides castle the castling field of
the reachable position is the empty string, but `boardToFEN` emits `-`
for it, so `parseFEN (boardToFEN p)` differs from `p` in the castling
field: the round-trip is not the identity on every reachable Position. -/
theorem fen_roundtrip_counterexample :
    applyMoves startState c1seq = some c1state ∧
      Reachable c1state ∧
      c1state.castling = "" ∧
      (parseFEN (boardToFEN c1state)).castling = "-" ∧
      parseFEN (boardToFEN c1state) ≠ c1state := by
  have happ : applyMoves startState c1seq = some c1state := by decide
  have hre : Reachable c1state := reachable_applyMoves c1seq startState c1state Reachable.init happ
  have hcast : c1state.castling = "" := by decide
  have hrt : parseFEN (boardToFEN c1state) = normCast c1state :=
    fen_roundtrip_WF c1state (WF_reachable hre)
  have hnc : (normCast c1state).castling = "-" := by
    simp [normCast, hcast]
  refine ⟨happ, hre, hcast, ?_, ?_⟩
  · rw [hrt, hnc]
  · intro h
    rw [hrt] at h
    have h2 := congrArg GameState.castling h
    rw [hnc, hcast] at h2
    exact absurd h2 (by decide)

/-- C10.  A `move` call never changes the engine's own state: the engine
component returned by the method is the receiver, `getFEN` is unchanged,
and on success the produced record is the encoding of the result state
and differs from the engine's record — the new position exists only
inside the returned result. -/
theorem engine_state_unchanged (e : Engine) (fromS toS : String) (pr : Option Char)
    (hWF : WF e.st) (hpr : pr ∈ promoOK) :
    (e.moveE fromS toS pr).1 = e ∧
      ((e.moveE fromS toS pr).1).getFEN = e.getFEN ∧
      ∀ (st' : GameState) (fen : String) (mv : MoveRec),
        (e.moveE fromS toS pr).2 = .ok st' fen mv →
        fen = boardToFEN st' ∧ fen ≠ e.getFEN := by
  refine ⟨rfl, rfl, ?_⟩
  intro st' fen mv h
  have hmv : move e.st fromS toS pr = .ok st' fen mv := h
  obtain ⟨p, cand, hp, hf, hst', hfen, _⟩ := move_ok_inversion hmv
  refine ⟨hfen, ?_⟩
  intro hcontra
  have hWF' : WF st' := WF_step hWF hpr hmv
  have h1 : parseFEN fen = normCast st' := by
    rw [hfen]
    exact fen_roundtrip_WF st' hWF'
  have h2 : parseFEN fen = normCast e.st := by
    rw [hcontra]
    exact fen_roundtrip_WF e.st hWF
  have hte : st'.turn = e.st.turn := by
    have := congrArg GameState.turn (h1.symm.trans h2)
    simpa [normCast] using this
  have htne : st'.turn ≠ e.st.turn := by
    rw [hst', applyMoveState_turn]
    rcases hWF.2.2.2.1 with hw | hw <;> rw [hw] <;> decide
  exact htne hte

/-- Witness for C10: from the initial position, e2–e4 leaves the engine
on the initial record while the result carries a different record. -/
theorem engine_state_unchanged_witness :
    ((⟨startState⟩ : Engine).moveE "e2" "e4" none).1 = (⟨startState⟩ : Engine) ∧
      e4res.fenD "" ≠ boardToFEN startState := by
  obtain ⟨h1, _, h3⟩ :=
    engine_state_unchanged ⟨startState⟩ "e2" "e4" none (by decide) (by decide)
  have hok : ((⟨startState⟩ : Engine).moveE "e2" "e4" none).2 =
      .ok e4st (e4res.fenD "") (e4res.mvD dummyRec) := by decide
  exact ⟨h1, (h3 _ _ _ hok).2⟩

/-- C8.  From the initial position, e2–e4 succeeds and produces exactly
the expected record. -/
theorem initial_e2e4_record :
    (move startState "e2" "e4" none).isOk = true ∧
      (move startState "e2" "e4" none).fenD "" =
        "rnbqkbnr/pppppppp/8/8/4P3/8/PPPP1PPP/RNBQKBNR b KQkq e3 0 1" := by decide

end NCB
